import Mathlib

/-!
Verification of the KeyHunt-Cuda99 point pre-generation scripts.

The development shallowly embeds the two Python source files:

* `gen_pubkeyComp_subsOnly_bin_MP.py` — decodes a secp256k1 public key,
  partitions the index range `[1, Y]` into blocks, computes
  `P - i·Z·G` for every index, and writes compressed-hex text lines and
  optional raw 32-byte X-coordinate binary records in ascending index
  order (the pool results are consumed in block-submission order, so the
  output is a pure function of the inputs and the block list).
* `pubkey_to_xpoint_fix.py` — a converter that reduces each line of a
  pubkey list to its 64-hex-digit X-coordinate and appends the decoded
  bytes to a binary file, skipping (and counting) malformed lines.

Machine integers are modelled as `Nat` (Python integers are unbounded),
Python `%` on possibly-negative intermediate values is modelled with
`Int.emod`, and fallible code returns `Option`/`Except`.  The elliptic
curve arithmetic itself is supplied by the external `ecdsa` library,
which the specification treats as a trusted collaborator; those
operations are modelled from the spec (standard affine group law with
Fermat inversion) and are marked as such below.
-/

namespace KeyHunt

/-! ### secp256k1 curve constants

Modelled from the spec: the external curve provider (`ecdsa.curves.SECP256k1`)
exposes the field prime, the curve coefficients, the generator point and the
group order.  These are the standard secp256k1 constants. -/

/-- Field prime `p` of secp256k1 (`CURVE.p()` in the source). -/
def P_FIELD : Nat :=
  0xfffffffffffffffffffffffffffffffffffffffffffffffffffffffefffffc2f

/-- Curve coefficient `a` of secp256k1 (`CURVE.a()` in the source). -/
def A : Nat := 0

/-- Curve coefficient `b` of secp256k1 (`CURVE.b()` in the source). -/
def B : Nat := 7

/-- Group order `n` of secp256k1 (`SECP.order` in the source). -/
def ORDER : Nat :=
  0xfffffffffffffffffffffffffffffffebaaedce6af48a03bbfd25e8cd0364141

/-- X-coordinate of the secp256k1 generator `G`. -/
def GEN_X : Nat :=
  0x79be667ef9dcbbac55a06295ce870b07029bfcdb2dce28d959f2815b16f81798

/-- Y-coordinate of the secp256k1 generator `G`. -/
def GEN_Y : Nat :=
  0x483ada7726a3c4655da4fbfc0e1108a8fd17b448a68554199c47d08ffb10d4b8

/-! ### Modular exponentiation

Python's three-argument `pow(b, e, m)` over nonnegative arguments.  The
definition uses binary exponentiation with an explicit fuel argument so
that it both evaluates inside the kernel and supports plain structural
induction. -/

/-- Binary modular exponentiation with fuel; the fuel is an upper bound
on the recursion depth (any `fuel > e` gives the true value). -/
def powModAux : Nat → Nat → Nat → Nat → Nat
  | 0, _, _, m => 1 % m
  | fuel + 1, b, e, m =>
    if e = 0 then 1 % m
    else
      let r := powModAux fuel ((b * b) % m) (e / 2) m
      if e % 2 = 1 then (r * b) % m else r

/-- Python `pow(b, e, m)` for `m > 0`: returns `b ^ e % m`. -/
def powMod (b e m : Nat) : Nat := powModAux (e + 1) b e m

/-! ### Hexadecimal strings

Python strings are modelled as `List Char`.  `hexParse` models
`int(s, 16)` on its nonnegative fragment: besides plain hexadecimal
digits CPython tolerates surrounding whitespace, one `+` or `-` sign,
an optional `0x`/`0X` base marker and single underscores between
digits; all of these are embedded except a `-` sign, whose negative
result has no place in this development's `Nat` coordinates (see the
doc comment of `hexParse`).  `toHex64` models the format specifier
`f"{x:064x}"`. -/

/-- The ASCII whitespace characters (`C`-level `Py_ISSPACE`): the characters
`bytes.fromhex` skips between byte pairs. -/
def isAsciiSpace (c : Char) : Bool :=
  c = ' ' || c = '\t' || c = '\n' || c = '\r' || c = '\x0b' || c = '\x0c'

/-- The whitespace characters `int(s, 16)` tolerates around a literal: ASCII
whitespace plus the Unicode `White_Space` characters, which CPython
transforms to plain spaces before parsing the number. -/
def isIntSpace (c : Char) : Bool :=
  isAsciiSpace c || c = '\x85' || c = '\xa0' || c = '\u1680' ||
  ('\u2000' ≤ c && c ≤ '\u200A') || c = '\u2028' || c = '\u2029' ||
  c = '\u202F' || c = '\u205F' || c = '\u3000'

/-- Value of one hexadecimal digit character, `none` for any other character. -/
def hexVal? (c : Char) : Option Nat :=
  if '0' ≤ c ∧ c ≤ '9' then some (c.toNat - '0'.toNat)
  else if 'a' ≤ c ∧ c ≤ 'f' then some (c.toNat - 'a'.toNat + 10)
  else if 'A' ≤ c ∧ c ≤ 'F' then some (c.toNat - 'A'.toNat + 10)
  else none

/-- Plain accumulator pass over hexadecimal digits (the underscore-free core
of an `int(s, 16)` literal). -/
def hexParseAux : Nat → List Char → Option Nat
  | acc, [] => some acc
  | acc, c :: cs =>
    match hexVal? c with
    | some d => hexParseAux (16 * acc + d) cs
    | none => none

/-- Digit run of an `int(s, 16)` literal: hexadecimal digits with single
underscores between digits (the Bool flag records that the previous
character was an underscore, which must be followed by a digit).  Stops at
the first character that is neither digit nor underscore, returning it with
the rest of the input. -/
def hexDigitsUnd : Nat → Bool → List Char → Option (Nat × List Char)
  | acc, false, [] => some (acc, [])
  | _, true, [] => none
  | acc, u, c :: cs =>
    match hexVal? c with
    | some d => hexDigitsUnd (16 * acc + d) false cs
    | none =>
      if u then none
      else if c = '_' then hexDigitsUnd acc true cs
      else some (acc, c :: cs)

/-- An `int(s, 16)` literal body must begin with a hexadecimal digit (in
particular it may not begin with an underscore and may not be empty). -/
def hexLitVal : List Char → Option (Nat × List Char)
  | [] => none
  | c :: cs =>
    match hexVal? c with
    | some d => hexDigitsUnd d false cs
    | none => none

/-- Optional leading `+` sign of an `int` literal (no whitespace may separate
the sign from the number). -/
def stripSignPlus (l : List Char) : List Char :=
  match l with
  | c :: rest => if c = '+' then rest else l
  | [] => l

/-- Optional `0x`/`0X` base marker of an `int(_, 16)` literal; CPython allows
one underscore directly after the marker. -/
def stripBaseTag (l : List Char) : List Char :=
  match l with
  | c0 :: c1 :: rest =>
    if c0 = '0' ∧ (c1 = 'x' ∨ c1 = 'X') then
      match rest with
      | c2 :: rest2 => if c2 = '_' then rest2 else rest
      | [] => rest
    else l
  | _ => l

/-- Python `int(s, 16)` on its nonnegative fragment: surrounding whitespace,
an optional `+` sign, an optional `0x`/`0X` marker and single underscores
between digits are accepted with CPython's semantics, and at least one digit
is required (so the empty string and all-whitespace strings always fail, as
in Python).  A leading `-` sign — whose negative value cannot inhabit the
`Nat` coordinates this development uses throughout — and non-ASCII digit
forms are not modelled: on those inputs this function is `none` although the
interpreter succeeds, so the theorems below never assert a rejection for a
slice that could carry such a form — every `ValueError` they assert is for
an empty slice, which CPython rejects unconditionally. -/
def hexParse (l : List Char) : Option Nat :=
  match hexLitVal (stripBaseTag (stripSignPlus (l.dropWhile isIntSpace))) with
  | some (v, rest) => if rest.all isIntSpace then some v else none
  | none => none

/-- The lowercase hexadecimal digit for `d < 16`. -/
def hexDigitChar (d : Nat) : Char :=
  if d < 10 then Char.ofNat ('0'.toNat + d) else Char.ofNat ('a'.toNat + (d - 10))

/-- Hexadecimal digits of `n`, most significant first, `[]` for `0`
(fuel-driven so that it evaluates in the kernel). -/
def hexChars : Nat → Nat → List Char
  | 0, _ => []
  | fuel + 1, n => if n = 0 then [] else hexChars fuel (n / 16) ++ [hexDigitChar (n % 16)]

/-- Minimal lowercase hexadecimal rendering of `n` (empty for 0). -/
def toHexNat (n : Nat) : List Char := hexChars (n + 1) n

/-- Python `f"{n:064x}"`: lowercase hex, left-padded with zeros to 64 digits. -/
def toHex64 (n : Nat) : List Char :=
  List.replicate (64 - (toHexNat n).length) '0' ++ toHexNat n

/-- Decimal digits of `n`, `[]` for `0` (fuel-driven). -/
def decChars : Nat → Nat → List Char
  | 0, _ => []
  | fuel + 1, n => if n = 0 then [] else decChars fuel (n / 10) ++ [Char.ofNat ('0'.toNat + n % 10)]

/-- Python `f"{n}"`, decimal rendering. -/
def decRepr (n : Nat) : List Char := if n = 0 then ['0'] else decChars (n + 1) n

/-- Python `bytes.fromhex`: before each byte ASCII whitespace characters are
skipped, then two hexadecimal digits are required; fails on a dangling digit
or other characters (including whitespace between the two digits of a byte,
and any non-ASCII character). -/
def fromhexBytes : List Char → Option (List Nat)
  | [] => some []
  | c :: cs =>
    if isAsciiSpace c then fromhexBytes cs
    else
      match cs with
      | [] => none
      | c2 :: cs2 =>
        match hexVal? c, hexVal? c2 with
        | some d1, some d2 => (fromhexBytes cs2).map (fun bs => (16 * d1 + d2) :: bs)
        | _, _ => none

/-- Core of `startswith`: does the first list prefix the second? -/
def prefixMatches : List Char → List Char → Bool
  | [], _ => true
  | _ :: _, [] => false
  | d :: pr, c :: cs => (c == d) && prefixMatches pr cs

/-- Python `s.startswith(t)` on character lists. -/
def startsWithCh (s pre : List Char) : Bool := prefixMatches pre s

/-! ### The curve provider

Modelled from the spec: point addition, negation and scalar multiplication are
supplied by the external `ecdsa` library, which the spec designates a trusted
collaborator.  They are embedded as the standard affine chord-and-tangent
group law over `P_FIELD` (with `a = 0`), with modular inversion by Fermat's
little theorem; intermediate signed values use `Int` and Python's
nonnegative-`%` convention. -/

/-- Affine point or the point at infinity. -/
inductive Point where
  | inf : Point
  | aff (x y : Nat) : Point
deriving DecidableEq, Repr

/-- Reduce a signed intermediate value modulo the field prime (Python `% p`). -/
def pEmod (z : Int) : Nat := (z % (P_FIELD : Int)).toNat

/-- Modular inverse modulo the field prime, by Fermat's little theorem. -/
def invMod (a : Nat) : Nat := powMod a (P_FIELD - 2) P_FIELD

/-- Modelled from the spec: doubling of an affine point (curve coefficient `a = 0`). -/
def pointDouble (x y : Nat) : Point :=
  let l : Nat := pEmod ((3 * x * x + A) * (invMod ((2 * y) % P_FIELD)))
  let x3 : Nat := pEmod ((l : Int) * l - 2 * x)
  let y3 : Nat := pEmod ((l : Int) * ((x : Int) - x3) - y)
  .aff x3 y3

/-- Modelled from the spec: affine point addition (the external library's group law). -/
def pointAdd : Point → Point → Point
  | p, .inf => p
  | .inf, q => q
  | .aff x1 y1, .aff x2 y2 =>
    if x1 = x2 then
      if (y1 + y2) % P_FIELD = 0 then .inf
      else pointDouble x1 y1
    else
      let l : Nat := pEmod (((y2 : Int) - y1) * (invMod (pEmod ((x2 : Int) - x1))))
      let x3 : Nat := pEmod ((l : Int) * l - x1 - x2)
      let y3 : Nat := pEmod ((l : Int) * ((x1 : Int) - x3) - y1)
      .aff x3 y3

/-- Double-and-add loop with fuel (any `fuel > k` gives the true value). -/
def scalarMulAux : Nat → Nat → Point → Point
  | 0, _, _ => .inf
  | fuel + 1, k, p =>
    if k = 0 then .inf
    else
      let r := scalarMulAux fuel (k / 2) (pointAdd p p)
      if k % 2 = 1 then pointAdd r p else r

/-- Modelled from the spec: scalar multiplication `k · p` (returns `inf` for `k = 0`). -/
def scalarMul (k : Nat) (p : Point) : Point := scalarMulAux (k + 1) k p

/-- The secp256k1 generator point `G` (`SECP.generator` in the source). -/
def GEN : Point := .aff GEN_X GEN_Y

/-! ### Key codec (`hex_to_point`, `point_to_compressed_hex`) -/

/-- How a run of `hex_to_point` terminates abnormally: `fatal` is the explicit
`sys.exit` on an unknown leading byte, `exn` an uncaught `ValueError` from
`int(_, 16)` on a malformed slice. -/
inductive DecErr where
  | fatal : DecErr
  | exn : DecErr
deriving DecidableEq, Repr

/-- `hex_to_point` from `gen_pubkeyComp_subsOnly_bin_MP.py` (lines 64-77).
Returns the affine coordinates of the decoded point; the source wraps them in
`ellipticcurve.Point`, which the spec models as a plain immutable pair. -/
def hexToPoint (s : List Char) : Except DecErr (Nat × Nat) :=
  if startsWithCh s ['0', '4'] then
    match hexParse ((s.drop 2).take 64), hexParse (s.drop 66) with
    | some x, some y => .ok (x, y)
    | _, _ => .error .exn
  else if startsWithCh s ['0', '2'] || startsWithCh s ['0', '3'] then
    match hexParse (s.take 2), hexParse (s.drop 2) with
    | some pfx, some x =>
      let alpha := (x * x * x + A * x + B) % P_FIELD
      let y0 := powMod alpha ((P_FIELD + 1) / 4) P_FIELD
      let y := if (y0 % 2 = 0 ∧ pfx = 3) ∨ (y0 % 2 = 1 ∧ pfx = 2) then P_FIELD - y0 else y0
      .ok (x, y)
    | _, _ => .error .exn
  else .error .fatal

/-- `point_to_compressed_hex` (lines 80-82): parity byte then `f"{x:064x}"`. -/
def pointToCompressedHex (x y : Nat) : List Char :=
  (if y % 2 = 0 then ['0', '2'] else ['0', '3']) ++ toHex64 x

/-! ### Block compute worker (`worker_block`, lines 92-110) -/

/-- One output record: the loop index's offset `i·Z`, the compressed hex of the
derived point (`hex_sub` in the source), the rendered text line, and the raw
X-coordinate bytes appended to `bin_data` (empty when binary output is off). -/
structure ResultRecord where
  offset : Nat
  hex : List Char
  line : List Char
  bin : List Nat
deriving DecidableEq, Repr

/-- The text after the compressed hex in a worker line: `f"  # -{offset}\n"`. -/
def lineTail (offset : Nat) : List Char :=
  [' ', ' ', '#', ' ', '-'] ++ decRepr offset ++ ['\n']

/-- The text after the compressed hex in the header line: `"  # 0\n"`. -/
def headerTail : List Char := [' ', ' ', '#', ' ', '0', '\n']

/-- `(-y) % p` as the worker writes it (Python `(-Q.y()) % P_FIELD`). -/
def negModP (y : Nat) : Nat := ((-(y : Int)) % (P_FIELD : Int)).toNat

/-- The body of the `for i in range(i_start, i_end)` loop of `worker_block`.
`none` models the crash on the point at infinity: there `Q.y()`
(respectively `P_sub.y()`) is Python `None` and the arithmetic on it raises. -/
def workerStep (Px Py Z : Nat) (binOn : Bool) (i : Nat) : Option ResultRecord :=
  let offset := i * Z
  let k := offset % ORDER
  match scalarMul k GEN with
  | .inf => none
  | .aff qx qy =>
    match pointAdd (.aff Px Py) (.aff qx (negModP qy)) with
    | .inf => none
    | .aff sx sy =>
      let hexSub := pointToCompressedHex sx sy
      if binOn then
        match fromhexBytes (hexSub.drop 2) with
        | some bs => some ⟨offset, hexSub, hexSub ++ lineTail offset, bs⟩
        | none => none
      else some ⟨offset, hexSub, hexSub ++ lineTail offset, []⟩

/-- Map a fallible step over a list, failing if any element fails. -/
def optMap {α β : Type} (f : α → Option β) : List α → Option (List β)
  | [] => some []
  | a :: l =>
    match f a, optMap f l with
    | some b, some bs => some (b :: bs)
    | _, _ => none

/-- `worker_block` on the half-open block `[blk.1, blk.2)`. -/
def workerBlock (Px Py Z : Nat) (binOn : Bool) (blk : Nat × Nat) :
    Option (List ResultRecord) :=
  optMap (workerStep Px Py Z binOn) (List.range' blk.1 (blk.2 - blk.1))

/-! ### Range partitioner (line 131) -/

/-- Python `range(start, stop, step)` for a positive step, fuel-driven. -/
def pyRangeAux (stop step : Nat) : Nat → Nat → List Nat
  | 0, _ => []
  | fuel + 1, start =>
    if start < stop then start :: pyRangeAux stop step fuel (start + step) else []

/-- Python `range(start, stop, step)` (used with `step ≥ 1` only). -/
def pyRange (start stop step : Nat) : List Nat :=
  pyRangeAux stop step (stop - start) start

/-- The block list `[(i, min(i+block_size, max_i+1)) for i in range(1, max_i+1, block_size)]`. -/
def mkBlocks (Y blockSize : Nat) : List (Nat × Nat) :=
  (pyRange 1 (Y + 1) blockSize).map (fun i => (i, min (i + blockSize) (Y + 1)))

/-! ### Driver (`main`, lines 113-147)

The driver is modelled as a pure function from the already-parsed CLI
inputs to the sequence of file-system effects it performs plus its
outcome.  `rangeVal` is the value of `eval(args.range)` (`none` when the
expression raises).  Consuming `pool.imap` results in submission order is
modelled by folding the block list in order. -/

/-- A file-system effect of `main`: creating a sink or appending to one. -/
inductive Ev where
  | openTxt : Ev
  | openBin : Ev
  | txtWrite (line : List Char) : Ev
  | binWrite (bs : List Nat) : Ev
deriving DecidableEq, Repr

/-- The writes `main` performs for one consumed block: `writelines(text_lines)`
then, with binary output on, one `write(bin_data)`. -/
def blockEvents (binOn : Bool) (recs : List ResultRecord) : List Ev :=
  recs.map (fun r => Ev.txtWrite r.line) ++
    (if binOn then [Ev.binWrite (recs.map (fun r => r.bin)).flatten] else [])

/-- The `for text_lines, bin_data in pool.imap(worker_block, blocks)` loop:
blocks are consumed in submission order; a failing block aborts the run after
the writes of the preceding blocks. -/
def writeBlocks (Px Py Z : Nat) (binOn : Bool) :
    List (Nat × Nat) → List Ev × Except String Unit
  | [] => ([], .ok ())
  | blk :: rest =>
    match workerBlock Px Py Z binOn blk with
    | none => ([], .error "worker")
    | some recs =>
      let t := writeBlocks Px Py Z binOn rest
      (blockEvents binOn recs ++ t.1, t.2)

/-- `main`, from parsed inputs to effects and outcome.  Validation failures
(`sys.exit` on a bad pubkey, an uncaught error from `eval`, `sys.exit` on odd
chunks, `ZeroDivisionError` on `X // 0`) happen before any file is opened,
exactly as in the source (lines 113-124). -/
def mainModel (pub : List Char) (rangeVal : Option Nat) (Y : Nat) (binOn : Bool)
    (blockSize : Nat) : List Ev × Except String Unit :=
  match hexToPoint pub with
  | .error _ => ([], .error "pubkey")
  | .ok (Px, Py) =>
    match rangeVal with
    | none => ([], .error "range")
    | some X =>
      if Y % 2 ≠ 0 then ([], .error "chunks")
      else if Y = 0 then ([], .error "division by zero")
      else
        let Z := X / Y
        let headHex := pointToCompressedHex Px Py
        let openEvs := Ev.openTxt :: (if binOn then [Ev.openBin] else [])
        let hdr := Ev.txtWrite (headHex ++ headerTail)
        if binOn then
          match fromhexBytes (headHex.drop 2) with
          | none => (openEvs ++ [hdr], .error "exn")
          | some hbs =>
            let t := writeBlocks Px Py Z binOn (mkBlocks Y blockSize)
            (openEvs ++ [hdr, Ev.binWrite hbs] ++ t.1, t.2)
        else
          let t := writeBlocks Px Py Z binOn (mkBlocks Y blockSize)
          (openEvs ++ [hdr] ++ t.1, t.2)

/-- The text lines appended to the text sink, in order. -/
def txtWrites : List Ev → List (List Char)
  | [] => []
  | Ev.txtWrite l :: evs => l :: txtWrites evs
  | _ :: evs => txtWrites evs

/-- The bytes appended to the binary sink, in order. -/
def binBytes : List Ev → List Nat
  | [] => []
  | Ev.binWrite bs :: evs => bs ++ binBytes evs
  | _ :: evs => binBytes evs

/-- Concatenate the per-block results in submission order (the value the
ordered aggregation produces, compared with one sequential pass in C3). -/
def joinM {α : Type} : List (Option (List α)) → Option (List α)
  | [] => some []
  | o :: os => o.bind (fun a => (joinM os).bind (fun b => some (a ++ b)))

/-- All records of the block-partitioned pipeline, in block-submission order. -/
def pipelineRecs (Px Py Z Y blockSize : Nat) (binOn : Bool) :
    Option (List ResultRecord) :=
  joinM ((mkBlocks Y blockSize).map (workerBlock Px Py Z binOn))

/-! ### The converter utility (`pubkey_to_xpoint_fix.py`) -/

/-- The characters Python `str.strip()` removes: `str` whitespace is the
`int`-literal whitespace plus the ASCII separator characters `\x1c`-`\x1f`. -/
def isPySpace (c : Char) : Bool :=
  isIntSpace c || ('\x1c' ≤ c && c ≤ '\x1f')

/-- Python `str.strip()`. -/
def pyStrip (l : List Char) : List Char :=
  ((l.dropWhile isPySpace).reverse.dropWhile isPySpace).reverse

/-- `line.strip().split('#')[0].strip()` — the payload `x` of one input line. -/
def payloadOf (line : List Char) : List Char :=
  pyStrip ((pyStrip line).takeWhile (fun c => c ≠ '#'))

/-- What one input line contributes: ignored (empty), skipped (bad length or
bad hex), or the decoded bytes written to the output file. -/
inductive LineRes where
  | empty : LineRes
  | skipped : LineRes
  | wrote (bs : List Nat) : LineRes
deriving DecidableEq, Repr

/-- The `try: outf.write(bytes.fromhex(x)) except ValueError: skip` tail. -/
def fromhexRes (x : List Char) : LineRes :=
  match fromhexBytes x with
  | some bs => .wrote bs
  | none => .skipped

/-- The 64-character string handed to `bytes.fromhex` for this line, `none`
when the line is empty or skipped for its length. -/
def finalHex (line : List Char) : Option (List Char) :=
  let x := payloadOf line
  if x = [] then none
  else if x.length = 64 then some x
  else if x.length = 66 then some (x.drop 2)
  else if x.length = 130 then some ((x.drop 2).take 64)
  else none

/-- The body of the `for line in inf` loop of `pubkeys_to_xpoint`. -/
def processLine (line : List Char) : LineRes :=
  let x := payloadOf line
  if x = [] then .empty
  else if x.length = 64 then fromhexRes x
  else if x.length = 66 then fromhexRes (x.drop 2)
  else if x.length = 130 then fromhexRes ((x.drop 2).take 64)
  else .skipped

/-- Final state of a converter run: the reported `processed` and `skipped`
counters and the bytes written to the output file. -/
structure ConvState where
  count : Nat
  skip : Nat
  out : List Nat
deriving DecidableEq, Repr

/-- State update of `pubkeys_to_xpoint` for one input line. -/
def convStep (st : ConvState) (line : List Char) : ConvState :=
  match processLine line with
  | .empty => st
  | .skipped => { st with skip := st.skip + 1 }
  | .wrote bs => { st with count := st.count + 1, out := st.out ++ bs }

/-- `pubkeys_to_xpoint` on the list of input lines. -/
def pubkeysToXpoint (lines : List (List Char)) : ConvState :=
  lines.foldl convStep ⟨0, 0, []⟩

/-! ### Auxiliary definitions for statements and concrete runs -/

instance {ε α : Type} [DecidableEq ε] [DecidableEq α] : DecidableEq (Except ε α) :=
  fun x y =>
    match x, y with
    | .ok a, .ok b =>
      if h : a = b then .isTrue (by rw [h])
      else .isFalse (by intro hc; injection hc; exact h (by assumption))
    | .error a, .error b =>
      if h : a = b then .isTrue (by rw [h])
      else .isFalse (by intro hc; injection hc; exact h (by assumption))
    | .ok _, .error _ => .isFalse (by intro hc; exact Except.noConfusion hc)
    | .error _, .ok _ => .isFalse (by intro hc; exact Except.noConfusion hc)

/-- Both coordinates of an affine point are reduced modulo the field prime. -/
def pointLt : Point → Prop
  | .inf => True
  | .aff x y => x < P_FIELD ∧ y < P_FIELD

/-- The sixteen lowercase hexadecimal digit characters. -/
def lowerHexDigits : List Char := "0123456789abcdef".toList

/-- The generator's uncompressed encoding `04 || x || y`, a decodable input. -/
def genPub04 : List Char :=
  "0479be667ef9dcbbac55a06295ce870b07029bfcdb2dce28d959f2815b16f81798483ada7726a3c4655da4fbfc0e1108a8fd17b448a68554199c47d08ffb10d4b8".toList

/-- Compressed hex of `-G` (the point `G - 2·G`), used by concrete runs. -/
def negGHex : List Char :=
  "0379be667ef9dcbbac55a06295ce870b07029bfcdb2dce28d959f2815b16f81798".toList

/-- The record `worker_block` emits for `P = G`, `Z = 1`, `i = 2`, no binary sink. -/
def c1rec : ResultRecord := ⟨2, negGHex, negGHex ++ lineTail 2, []⟩

/-- The record `worker_block` emits for `P = G`, `Z = 1`, `i = 2` (step form). -/
def c8rec : ResultRecord := ⟨2, negGHex, negGHex ++ lineTail 2, []⟩

/-- A 64-character converter line whose interior spaces `bytes.fromhex` ignores. -/
def convSpacedLine : List Char :=
  ("aa" ++ String.mk (List.replicate 60 ' ') ++ "bb").toList

/-- A well-formed 64-hex-digit converter line. -/
def convPlainLine : List Char := List.replicate 64 'a'

/-! ## Lemmas -/

set_option maxRecDepth 1000000

theorem P_FIELD_pos : 0 < P_FIELD := by decide

theorem P_FIELD_one_lt : 1 < P_FIELD := by decide

theorem powModAux_eq_pow (m : Nat) :
    ∀ fuel e b, e < fuel → powModAux fuel b e m = b ^ e % m := by
  intro fuel
  induction fuel with
  | zero => intro e b h; omega
  | succ n ih =>
    intro e b h
    by_cases he : e = 0
    · subst he; simp [powModAux]
    · have he2 : e / 2 < n := by omega
      have hr := ih (e / 2) ((b * b) % m) he2
      have hbb : ((b * b) % m) ^ (e / 2) % m = (b * b) ^ (e / 2) % m := by
        rw [Nat.pow_mod, Nat.mod_mod_of_dvd _ dvd_rfl, ← Nat.pow_mod]
      have hsq : (b * b) ^ (e / 2) = b ^ (2 * (e / 2)) := by
        rw [two_mul, pow_add, mul_pow]
      by_cases hodd : e % 2 = 1
      · have hee : e = 2 * (e / 2) + 1 := by omega
        simp only [powModAux, he, if_false, hodd, if_true]
        rw [hr, hbb, hsq]
        conv_rhs => rw [hee]
        rw [pow_succ, Nat.mul_mod, Nat.mod_mod_of_dvd _ dvd_rfl, ← Nat.mul_mod]
      · have hee : e = 2 * (e / 2) := by omega
        simp only [powModAux, he, if_false, hodd, if_false]
        rw [hr, hbb, hsq, ← hee]

/-- `powMod` agrees with mathematical exponentiation followed by `% m`. -/
theorem powMod_eq_pow (b e m : Nat) : powMod b e m = b ^ e % m :=
  powModAux_eq_pow m (e + 1) e b (Nat.lt_succ_self e)

/-- The result of `powMod` is always reduced modulo `m` (for `m > 0`). -/
theorem powMod_lt (b e m : Nat) (hm : 0 < m) : powMod b e m < m := by
  rw [powMod_eq_pow b e m]; exact Nat.mod_lt _ hm

/-! ### Hex-string lemmas -/

theorem hexVal_hexDigitChar : ∀ d, d < 16 → hexVal? (hexDigitChar d) = some d := by decide

theorem hexDigitChar_mem_lower : ∀ d, d < 16 → hexDigitChar d ∈ lowerHexDigits := by decide

theorem hexParseAux_snoc (c : Char) :
    ∀ (l : List Char) (acc : Nat),
      hexParseAux acc (l ++ [c]) =
        match hexParseAux acc l, hexVal? c with
        | some v, some d => some (16 * v + d)
        | _, _ => none := by
  intro l
  induction l with
  | nil =>
    intro acc
    simp only [List.nil_append, hexParseAux]
    cases hexVal? c <;> rfl
  | cons a t ih =>
    intro acc
    simp only [List.cons_append, hexParseAux]
    cases hexVal? a with
    | some d => exact ih (16 * acc + d)
    | none => cases hexVal? c <;> rfl

theorem hexChars_parse :
    ∀ fuel n, n < 16 ^ fuel →
      ∀ acc, hexParseAux acc (hexChars fuel n) =
        some (acc * 16 ^ (hexChars fuel n).length + n) := by
  intro fuel
  induction fuel with
  | zero =>
    intro n hn acc
    interval_cases n
    simp [hexChars, hexParseAux]
  | succ f ih =>
    intro n hn acc
    by_cases h0 : n = 0
    · subst h0; simp [hexChars, hexParseAux]
    · have hdiv : n / 16 < 16 ^ f := by
        rw [Nat.div_lt_iff_lt_mul (by norm_num)]
        calc n < 16 ^ (f + 1) := hn
        _ = 16 ^ f * 16 := by rw [pow_succ]
      have hrec := ih (n / 16) hdiv acc
      simp only [hexChars, h0, if_false]
      rw [hexParseAux_snoc, hrec, hexVal_hexDigitChar (n % 16) (Nat.mod_lt n (by norm_num))]
      simp only [List.length_append, List.length_cons, List.length_nil]
      congr 1
      have : acc * 16 ^ ((hexChars f (n / 16)).length + (0 + 1)) =
          (acc * 16 ^ (hexChars f (n / 16)).length) * 16 := by ring
      rw [this]
      have hmod := Nat.div_add_mod n 16
      omega

theorem lt_pow_digits (n : Nat) : n < 16 ^ (n + 1) := by
  calc n < 2 ^ n := Nat.lt_two_pow n
  _ ≤ 16 ^ n := Nat.pow_le_pow_left (by norm_num) n
  _ ≤ 16 ^ (n + 1) := Nat.pow_le_pow_right (by norm_num) (Nat.le_succ n)

theorem toHexNat_parse (n : Nat) :
    hexParseAux 0 (toHexNat n) = some n := by
  have := hexChars_parse (n + 1) n (lt_pow_digits n) 0
  simpa [toHexNat] using this

theorem hexParseAux_zeros :
    ∀ (k : Nat) (l : List Char),
      hexParseAux 0 (List.replicate k '0' ++ l) = hexParseAux 0 l := by
  intro k
  induction k with
  | zero => intro l; rfl
  | succ m ih =>
    intro l
    have h0 : hexVal? '0' = some 0 := by decide
    simp only [List.replicate_succ, List.cons_append, hexParseAux, h0]
    exact ih l

theorem toHexNat_ne_nil {n : Nat} (hn : n ≠ 0) : toHexNat n ≠ [] := by
  simp only [toHexNat, hexChars, hn, if_false]
  intro h
  exact List.append_ne_nil_of_right_ne_nil _ (by simp) h

theorem hexChars_length_le :
    ∀ (fuel n d : Nat), n < 16 ^ d → (hexChars fuel n).length ≤ d := by
  intro fuel
  induction fuel with
  | zero => intro n d _; simp [hexChars]
  | succ f ih =>
    intro n d hn
    by_cases h0 : n = 0
    · subst h0; simp [hexChars]
    · have hd : d ≠ 0 := by
        intro h; subst h; simp at hn; omega
      obtain ⟨d2, rfl⟩ : ∃ d2, d = d2 + 1 := ⟨d - 1, by omega⟩
      have hdiv : n / 16 < 16 ^ d2 := by
        rw [Nat.div_lt_iff_lt_mul (by norm_num)]
        calc n < 16 ^ (d2 + 1) := hn
        _ = 16 ^ d2 * 16 := by rw [pow_succ]
      simp only [hexChars, h0, if_false, List.length_append, List.length_cons,
        List.length_nil]
      have := ih (n / 16) d2 hdiv
      omega

theorem toHexNat_length_le {n : Nat} (hn : n < 16 ^ 64) : (toHexNat n).length ≤ 64 :=
  hexChars_length_le (n + 1) n 64 hn

theorem toHex64_length {n : Nat} (hn : n < 16 ^ 64) : (toHex64 n).length = 64 := by
  have := toHexNat_length_le hn
  simp only [toHex64, List.length_append, List.length_replicate]
  omega

theorem hexChars_mem_lower :
    ∀ (fuel n : Nat) (c : Char), c ∈ hexChars fuel n → c ∈ lowerHexDigits := by
  intro fuel
  induction fuel with
  | zero => intro n c h; simp [hexChars] at h
  | succ f ih =>
    intro n c h
    by_cases h0 : n = 0
    · subst h0; simp [hexChars] at h
    · simp only [hexChars, h0, if_false, List.mem_append, List.mem_cons,
        List.not_mem_nil, or_false] at h
      rcases h with h | h
      · exact ih (n / 16) c h
      · subst h; exact hexDigitChar_mem_lower (n % 16) (Nat.mod_lt n (by norm_num))

theorem toHex64_mem_lower {n : Nat} {c : Char} (h : c ∈ toHex64 n) :
    c ∈ lowerHexDigits := by
  simp only [toHex64, List.mem_append] at h
  rcases h with h | h
  · have := List.eq_of_mem_replicate h
    subst this; decide
  · exact hexChars_mem_lower (n + 1) n c h

theorem lower_hexVal : ∀ c ∈ lowerHexDigits,
    (hexVal? c).isSome ∧ isAsciiSpace c = false ∧ isIntSpace c = false ∧
    c ≠ '_' ∧ c ≠ '+' ∧ c ≠ 'x' ∧ c ≠ 'X' := by decide

theorem hexDigitsUnd_plain :
    ∀ (cs : List Char), (∀ c ∈ cs, c ∈ lowerHexDigits) →
      ∀ acc, hexDigitsUnd acc false cs =
        (hexParseAux acc cs).map (fun v => (v, ([] : List Char))) := by
  intro cs
  induction cs with
  | nil => intro _ acc; rfl
  | cons c t ih =>
    intro h acc
    have hc := lower_hexVal c (h c (by simp))
    obtain ⟨d, hd⟩ := Option.isSome_iff_exists.mp hc.1
    simp only [hexDigitsUnd, hd, hexParseAux]
    exact ih (fun x hx => h x (by simp [hx])) (16 * acc + d)

theorem hexLitVal_plain (c : Char) (cs : List Char)
    (h : ∀ x ∈ c :: cs, x ∈ lowerHexDigits) :
    hexLitVal (c :: cs) =
      (hexParseAux 0 (c :: cs)).map (fun v => (v, ([] : List Char))) := by
  have hc := lower_hexVal c (h c (by simp))
  obtain ⟨d, hd⟩ := Option.isSome_iff_exists.mp hc.1
  simp only [hexLitVal, hd, hexParseAux, Nat.mul_zero, Nat.zero_add]
  exact hexDigitsUnd_plain cs (fun x hx => h x (by simp [hx])) d

theorem stripBaseTag_plain (l : List Char)
    (h : ∀ x ∈ l, x ∈ lowerHexDigits) : stripBaseTag l = l := by
  cases l with
  | nil => rfl
  | cons c0 t =>
    cases t with
    | nil => rfl
    | cons c1 rest =>
      have hc1 := lower_hexVal c1 (h c1 (by simp))
      have hcond : ¬(c0 = '0' ∧ (c1 = 'x' ∨ c1 = 'X')) := by
        rintro ⟨-, h2 | h2⟩
        · exact hc1.2.2.2.2.2.1 h2
        · exact hc1.2.2.2.2.2.2 h2
      simp only [stripBaseTag, if_neg hcond]

theorem stripSignPlus_plain (l : List Char)
    (h : ∀ x ∈ l, x ∈ lowerHexDigits) : stripSignPlus l = l := by
  cases l with
  | nil => rfl
  | cons c t =>
    have hc := lower_hexVal c (h c (by simp))
    simp only [stripSignPlus, if_neg hc.2.2.2.2.1]

theorem dropWhile_plain (l : List Char)
    (h : ∀ x ∈ l, x ∈ lowerHexDigits) : l.dropWhile isIntSpace = l := by
  cases l with
  | nil => rfl
  | cons c t =>
    have hc := lower_hexVal c (h c (by simp))
    simp [List.dropWhile_cons, hc.2.2.1]

/-- On nonempty strings of plain hexadecimal digits, `int(s, 16)` is the
simple accumulator pass. -/
theorem hexParse_plain (l : List Char) (hne : l ≠ [])
    (h : ∀ x ∈ l, x ∈ lowerHexDigits) :
    hexParse l = hexParseAux 0 l := by
  cases l with
  | nil => exact absurd rfl hne
  | cons c cs =>
    unfold hexParse
    rw [dropWhile_plain _ h, stripSignPlus_plain _ h, stripBaseTag_plain _ h,
      hexLitVal_plain c cs h]
    cases hres : hexParseAux 0 (c :: cs) <;> rfl

theorem hexParse_toHex64 (n : Nat) : hexParse (toHex64 n) = some n := by
  have hne : toHex64 n ≠ [] := by
    unfold toHex64
    by_cases h0 : n = 0
    · subst h0; decide
    · intro h
      rcases List.append_eq_nil.mp h with ⟨-, h2⟩
      exact toHexNat_ne_nil h0 h2
  rw [hexParse_plain (toHex64 n) hne (fun c hc => toHex64_mem_lower hc), toHex64,
    hexParseAux_zeros, toHexNat_parse]

/-! ### `bytes.fromhex` lemmas -/

theorem fromhexBytes_hex_aux :
    ∀ (N : Nat) (l : List Char), l.length ≤ N →
      (∀ c ∈ l, (hexVal? c).isSome ∧ isAsciiSpace c = false) → l.length % 2 = 0 →
      ∃ bs, fromhexBytes l = some bs ∧ 2 * bs.length = l.length := by
  intro N
  induction N with
  | zero =>
    intro l hl _ _
    have : l = [] := List.length_eq_zero.mp (by omega)
    subst this
    exact ⟨[], rfl, rfl⟩
  | succ N ih =>
    intro l hl hall hev
    match l with
    | [] => exact ⟨[], rfl, rfl⟩
    | [c] => simp at hev
    | c :: c2 :: cs =>
      have hc := hall c (by simp)
      have hc2 := hall c2 (by simp)
      obtain ⟨d1, hd1⟩ := Option.isSome_iff_exists.mp hc.1
      obtain ⟨d2, hd2⟩ := Option.isSome_iff_exists.mp hc2.1
      have hcs : cs.length ≤ N := by
        simp only [List.length_cons] at hl ⊢; omega
      have hcsall : ∀ x ∈ cs, (hexVal? x).isSome ∧ isAsciiSpace x = false := fun x hx =>
        hall x (by simp [hx])
      have hcsev : cs.length % 2 = 0 := by
        simp only [List.length_cons] at hev ⊢; omega
      obtain ⟨bs, hbs, hlen⟩ := ih cs hcs hcsall hcsev
      refine ⟨(16 * d1 + d2) :: bs, ?_, ?_⟩
      · have hcn : ¬(isAsciiSpace c = true) := by simp [hc.2]
        simp only [fromhexBytes, if_neg hcn, hd1, hd2, hbs, Option.map_some']
      · simp only [List.length_cons]; omega

theorem fromhexBytes_hex (l : List Char)
    (hall : ∀ c ∈ l, (hexVal? c).isSome ∧ isAsciiSpace c = false)
    (hev : l.length % 2 = 0) :
    ∃ bs, fromhexBytes l = some bs ∧ 2 * bs.length = l.length :=
  fromhexBytes_hex_aux l.length l le_rfl hall hev

theorem fromhexBytes_len_aux :
    ∀ (N : Nat) (l : List Char) (bs : List Nat), l.length ≤ N →
      fromhexBytes l = some bs → (∀ c ∈ l, isAsciiSpace c = false) →
      2 * bs.length = l.length := by
  intro N
  induction N with
  | zero =>
    intro l bs hl hbs _
    have : l = [] := List.length_eq_zero.mp (by omega)
    subst this
    simp only [fromhexBytes, Option.some_inj] at hbs
    subst hbs; rfl
  | succ N ih =>
    intro l bs hl hbs hsp
    match l with
    | [] =>
      simp only [fromhexBytes, Option.some_inj] at hbs
      subst hbs; rfl
    | [c] =>
      have hc : ¬(isAsciiSpace c = true) := by simp [hsp c (by simp)]
      simp only [fromhexBytes, if_neg hc] at hbs
      exact Option.noConfusion hbs
    | c :: c2 :: cs =>
      have hc : ¬(isAsciiSpace c = true) := by simp [hsp c (by simp)]
      simp only [fromhexBytes, if_neg hc] at hbs
      cases h1 : hexVal? c with
      | none => rw [h1] at hbs; cases h2 : hexVal? c2 <;> rw [h2] at hbs <;> simp at hbs
      | some d1 =>
        rw [h1] at hbs
        cases h2 : hexVal? c2 with
        | none => rw [h2] at hbs; simp at hbs
        | some d2 =>
          rw [h2] at hbs
          cases hrec : fromhexBytes cs with
          | none => rw [hrec] at hbs; simp at hbs
          | some bs2 =>
            rw [hrec] at hbs
            simp only [Option.map_some', Option.some_inj] at hbs
            subst hbs
            have := ih cs bs2 (by simp only [List.length_cons] at hl ⊢; omega) hrec
              (fun x hx => hsp x (by simp [hx]))
            simp only [List.length_cons]
            omega

theorem fromhexBytes_len {l : List Char} {bs : List Nat}
    (hbs : fromhexBytes l = some bs) (hsp : ∀ c ∈ l, isAsciiSpace c = false) :
    2 * bs.length = l.length :=
  fromhexBytes_len_aux l.length l bs le_rfl hbs hsp

theorem fromhex_toHex64 {n : Nat} (hn : n < 16 ^ 64) :
    ∃ bs, fromhexBytes (toHex64 n) = some bs ∧ bs.length = 32 := by
  obtain ⟨bs, hbs, hlen⟩ := fromhexBytes_hex (toHex64 n)
    (fun c hc => ⟨(lower_hexVal c (toHex64_mem_lower hc)).1,
      (lower_hexVal c (toHex64_mem_lower hc)).2.1⟩)
    (by rw [toHex64_length hn])
  rw [toHex64_length hn] at hlen
  exact ⟨bs, hbs, by omega⟩

/-! ### Curve arithmetic lemmas -/

theorem pEmod_lt (z : Int) : pEmod z < P_FIELD := by
  have hp : (0 : Int) < (P_FIELD : Int) := by exact_mod_cast P_FIELD_pos
  have h1 : 0 ≤ z % (P_FIELD : Int) := Int.emod_nonneg z (by omega)
  have h2 : z % (P_FIELD : Int) < (P_FIELD : Int) := Int.emod_lt_of_pos z hp
  unfold pEmod
  omega

theorem pointDouble_lt (x y : Nat) : pointLt (pointDouble x y) := by
  unfold pointDouble pointLt
  exact ⟨pEmod_lt _, pEmod_lt _⟩

theorem pointAdd_pointLt {p q : Point} (hp : pointLt p) (hq : pointLt q) :
    pointLt (pointAdd p q) := by
  match p, q with
  | p, .inf => simpa [pointAdd] using hp
  | .inf, .aff x y => simpa [pointAdd] using hq
  | .aff x1 y1, .aff x2 y2 =>
    simp only [pointAdd]
    by_cases hx : x1 = x2
    · simp only [hx, if_true]
      by_cases hy : (y1 + y2) % P_FIELD = 0
      · simp [hy, pointLt]
      · simp only [hy, if_false]
        exact pointDouble_lt x2 y1
    · simp only [hx, if_false]
      exact ⟨pEmod_lt _, pEmod_lt _⟩

theorem scalarMulAux_pointLt :
    ∀ (fuel k : Nat) (p : Point), pointLt p → pointLt (scalarMulAux fuel k p) := by
  intro fuel
  induction fuel with
  | zero => intro k p _; simp [scalarMulAux, pointLt]
  | succ f ih =>
    intro k p hp
    by_cases hk : k = 0
    · simp [scalarMulAux, hk, pointLt]
    · simp only [scalarMulAux, hk, if_false]
      have hr := ih (k / 2) (pointAdd p p) (pointAdd_pointLt hp hp)
      by_cases ho : k % 2 = 1
      · simp only [ho, if_true]
        exact pointAdd_pointLt hr hp
      · simp only [ho, if_false]
        exact hr

theorem GEN_pointLt : pointLt GEN := by
  constructor <;> decide

theorem scalarMul_GEN_lt {k qx qy : Nat} (h : scalarMul k GEN = .aff qx qy) :
    qx < P_FIELD ∧ qy < P_FIELD := by
  have := scalarMulAux_pointLt (k + 1) k GEN GEN_pointLt
  rw [scalarMul] at h
  rw [h] at this
  exact this

theorem pointAdd_aff_lt {a b c d x y : Nat}
    (h : pointAdd (.aff a b) (.aff c d) = .aff x y) : x < P_FIELD ∧ y < P_FIELD := by
  simp only [pointAdd] at h
  by_cases hx : a = c
  · simp only [hx, if_true] at h
    by_cases hy : (b + d) % P_FIELD = 0
    · simp [hy] at h
    · simp only [hy, if_false] at h
      have hd := pointDouble_lt c b
      rw [h] at hd
      exact hd
  · simp only [hx, if_false] at h
    injection h with h1 h2
    subst h1; subst h2
    exact ⟨pEmod_lt _, pEmod_lt _⟩

theorem scalarMul_zero (p : Point) : scalarMul 0 p = .inf := rfl

theorem negModP_eq {y : Nat} (hy : y < P_FIELD) :
    negModP y = (P_FIELD - y) % P_FIELD := by
  unfold negModP
  by_cases h0 : y = 0
  · subst h0; simp
  · have hp : (0 : Int) < (P_FIELD : Int) := by exact_mod_cast P_FIELD_pos
    have hyi : (y : Int) < (P_FIELD : Int) := by exact_mod_cast hy
    have h0i : (0 : Int) < (y : Int) := by
      have : 0 < y := Nat.pos_of_ne_zero h0
      exact_mod_cast this
    have key : (-(y : Int)) % (P_FIELD : Int) = (P_FIELD : Int) - y := by
      rw [← Int.add_emod_self (a := -(y : Int)) (b := (P_FIELD : Int))]
      rw [Int.emod_eq_of_lt (by omega) (by omega)]
      ring
    rw [key]
    have hyp : (P_FIELD - y) % P_FIELD = P_FIELD - y :=
      Nat.mod_eq_of_lt (by omega)
    omega

theorem pointAdd_eq_inf_iff (x1 y1 x2 y2 : Nat) :
    pointAdd (.aff x1 y1) (.aff x2 y2) = .inf ↔
      (x1 = x2 ∧ (y1 + y2) % P_FIELD = 0) := by
  simp only [pointAdd]
  by_cases hx : x1 = x2
  · simp only [hx, if_true, true_and]
    by_cases hy : (y1 + y2) % P_FIELD = 0
    · simp [hy]
    · simp only [hy, if_false, iff_false]
      unfold pointDouble
      intro h
      exact Point.noConfusion h
  · simp only [hx, if_false]
    constructor
    · intro h; exact Point.noConfusion h
    · intro h; exact h.1.elim

theorem neg_cancel_iff {y1 y2 : Nat} (h1 : y1 < P_FIELD) (h2 : y2 < P_FIELD) :
    (y1 + (P_FIELD - y2) % P_FIELD) % P_FIELD = 0 ↔ y1 = y2 := by
  have hp := P_FIELD_pos
  by_cases h0 : y2 = 0
  · subst h0
    simp only [Nat.sub_zero, Nat.mod_self, Nat.add_zero]
    rw [Nat.mod_eq_of_lt h1]
  · have hsub : (P_FIELD - y2) % P_FIELD = P_FIELD - y2 :=
      Nat.mod_eq_of_lt (by omega)
    rw [hsub]
    constructor
    · intro h
      have hd : P_FIELD ∣ y1 + (P_FIELD - y2) := Nat.dvd_of_mod_eq_zero h
      obtain ⟨k, hk⟩ := hd
      have hk1 : y1 + (P_FIELD - y2) < 2 * P_FIELD := by omega
      have hk0 : 0 < y1 + (P_FIELD - y2) := by omega
      match k with
      | 0 => omega
      | 1 => omega
      | k + 2 =>
        have h2k : P_FIELD * 2 ≤ P_FIELD * (k + 2) :=
          Nat.mul_le_mul_left _ (by omega)
        omega
    · intro h; subst h
      have : y1 + (P_FIELD - y1) = P_FIELD := by omega
      rw [this, Nat.mod_self]

/-! ### `optMap` and `joinM` lemmas -/

theorem optMap_append {α β : Type} (f : α → Option β) :
    ∀ l1 l2 : List α,
      optMap f (l1 ++ l2) =
        match optMap f l1, optMap f l2 with
        | some a, some b => some (a ++ b)
        | _, _ => none := by
  intro l1
  induction l1 with
  | nil =>
    intro l2
    simp only [List.nil_append, optMap]
    cases optMap f l2 <;> rfl
  | cons a t ih =>
    intro l2
    have hc : (a :: t) ++ l2 = a :: (t ++ l2) := rfl
    rw [hc]
    simp only [optMap]
    rw [ih l2]
    cases f a <;> cases optMap f t <;> cases optMap f l2 <;> rfl

theorem optMap_length {α β : Type} (f : α → Option β) :
    ∀ (l : List α) (out : List β), optMap f l = some out → out.length = l.length := by
  intro l
  induction l with
  | nil =>
    intro out h
    simp only [optMap, Option.some_inj] at h
    subst h; rfl
  | cons a t ih =>
    intro out h
    simp only [optMap] at h
    cases hfa : f a with
    | none => rw [hfa] at h; exact Option.noConfusion h
    | some b =>
      rw [hfa] at h
      cases hot : optMap f t with
      | none => rw [hot] at h; exact Option.noConfusion h
      | some bs =>
        rw [hot] at h
        simp only [Option.some_inj] at h
        subst h
        simp only [List.length_cons, ih bs hot]

theorem optMap_get {α β : Type} (f : α → Option β) :
    ∀ (l : List α) (out : List β), optMap f l = some out →
      ∀ (j : Nat) (hj : j < l.length) (ho : j < out.length),
        f (l.get ⟨j, hj⟩) = some (out.get ⟨j, ho⟩) := by
  intro l
  induction l with
  | nil => intro out h j hj ho; simp at hj
  | cons a t ih =>
    intro out h j hj ho
    simp only [optMap] at h
    cases hfa : f a with
    | none => rw [hfa] at h; exact Option.noConfusion h
    | some b =>
      rw [hfa] at h
      cases hot : optMap f t with
      | none => rw [hot] at h; exact Option.noConfusion h
      | some bs =>
        rw [hot] at h
        simp only [Option.some_inj] at h
        subst h
        match j with
        | 0 => simpa using hfa
        | j + 1 =>
          simp only [List.get_cons_succ]
          exact ih bs hot j (by simpa using hj) (by simpa using ho)

theorem optMap_isSome {α β : Type} (f : α → Option β) :
    ∀ l : List α, (∀ a ∈ l, (f a).isSome) → ∃ out, optMap f l = some out := by
  intro l
  induction l with
  | nil => intro _; exact ⟨[], rfl⟩
  | cons a t ih =>
    intro hall
    obtain ⟨b, hb⟩ := Option.isSome_iff_exists.mp (hall a (by simp))
    obtain ⟨bs, hbs⟩ := ih (fun x hx => hall x (by simp [hx]))
    exact ⟨b :: bs, by simp only [optMap, hb, hbs]⟩

theorem optMap_mem {α β : Type} (f : α → Option β) :
    ∀ (l : List α) (out : List β), optMap f l = some out →
      ∀ b ∈ out, ∃ a ∈ l, f a = some b := by
  intro l
  induction l with
  | nil =>
    intro out h b hb
    simp only [optMap, Option.some_inj] at h
    subst h; simp at hb
  | cons a t ih =>
    intro out h b hb
    simp only [optMap] at h
    cases hfa : f a with
    | none => rw [hfa] at h; exact Option.noConfusion h
    | some b0 =>
      rw [hfa] at h
      cases hot : optMap f t with
      | none => rw [hot] at h; exact Option.noConfusion h
      | some bs =>
        rw [hot] at h
        simp only [Option.some_inj] at h
        subst h
        rcases List.mem_cons.mp hb with hb | hb
        · exact ⟨a, by simp, by rw [hfa, hb]⟩
        · obtain ⟨x, hx, hfx⟩ := ih bs hot b hb
          exact ⟨x, by simp [hx], hfx⟩

theorem joinM_optMap {α β : Type} (f : α → Option β) :
    ∀ L : List (List α), joinM (L.map (optMap f)) = optMap f L.flatten := by
  intro L
  induction L with
  | nil => rfl
  | cons l L ih =>
    simp only [List.map_cons, joinM, List.flatten_cons]
    simp only [ih, optMap_append]
    cases optMap f l <;> cases optMap f L.flatten <;> rfl

/-! ### Range partitioner lemmas -/

theorem pyRangeAux_head (stop step : Nat) :
    ∀ (fuel t : Nat) (b : Nat), (pyRangeAux stop step fuel t).head? = some b →
      b = t ∧ t < stop := by
  intro fuel t b h
  cases fuel with
  | zero => simp [pyRangeAux] at h
  | succ f =>
    by_cases hlt : t < stop
    · simp only [pyRangeAux, hlt, if_true, List.head?_cons, Option.some_inj] at h
      exact ⟨h.symm, hlt⟩
    · simp [pyRangeAux, hlt] at h

theorem pyRangeAux_tile (stop step : Nat) (hstep : 0 < step) :
    ∀ (fuel s : Nat), stop - s ≤ fuel →
      ((pyRangeAux stop step fuel s).map
        (fun i => List.range' i (min (i + step) stop - i))).flatten =
      List.range' s (stop - s) := by
  intro fuel
  induction fuel with
  | zero =>
    intro s hs
    have h0 : stop - s = 0 := by omega
    simp [pyRangeAux, h0]
  | succ f ih =>
    intro s hs
    by_cases hlt : s < stop
    · simp only [pyRangeAux, hlt, if_true, List.map_cons, List.flatten_cons]
      rw [ih (s + step) (by omega)]
      by_cases hend : s + step ≤ stop
      · have hmin : min (s + step) stop = s + step := by omega
        rw [hmin]
        have h1 : s + step - s = step := by omega
        rw [h1]
        have happ := List.range'_append s step (stop - (s + step)) 1
        rw [one_mul] at happ
        have h2 : stop - (s + step) + step = stop - s := by omega
        rw [h2] at happ
        exact happ
      · have hmin : min (s + step) stop = stop := by omega
        rw [hmin]
        have h2 : stop - (s + step) = 0 := by omega
        rw [h2]
        simp
    · have h0 : stop - s = 0 := by omega
      simp [pyRangeAux, hlt, h0]

theorem pyRangeAux_eq_range' (stop step : Nat) :
    ∀ (fuel s : Nat),
      pyRangeAux stop step fuel s =
        List.range' s (pyRangeAux stop step fuel s).length step := by
  intro fuel
  induction fuel with
  | zero => intro s; rfl
  | succ f ih =>
    intro s
    by_cases hlt : s < stop
    · simp only [pyRangeAux, hlt, if_true, List.length_cons]
      rw [List.range'_succ]
      congr 1
      exact ih (s + step)
    · simp [pyRangeAux, hlt]

theorem pyRangeAux_get (stop step fuel s j : Nat)
    (h : j < (pyRangeAux stop step fuel s).length) :
    (pyRangeAux stop step fuel s).get ⟨j, h⟩ = s + step * j := by
  have he := pyRangeAux_eq_range' stop step fuel s
  rw [List.get_of_eq he, List.get_eq_getElem, List.getElem_range']

theorem pyRangeAux_chain (stop step : Nat) (hstep : 0 < step) :
    ∀ (fuel s : Nat),
      List.Chain' (fun i j => min (i + step) stop = j ∧ i < j)
        (pyRangeAux stop step fuel s) := by
  intro fuel
  induction fuel with
  | zero => intro s; simp [pyRangeAux]
  | succ f ih =>
    intro s
    by_cases hlt : s < stop
    · simp only [pyRangeAux, hlt, if_true]
      rw [List.chain'_cons']
      refine ⟨?_, ih (s + step)⟩
      intro b hb
      obtain ⟨hb1, hb2⟩ := pyRangeAux_head stop step f (s + step) b hb
      constructor
      · omega
      · omega
    · simp [pyRangeAux, hlt]

theorem pyRangeAux_dropLast (stop step : Nat) :
    ∀ (fuel s : Nat), ∀ i ∈ (pyRangeAux stop step fuel s).dropLast,
      i + step < stop := by
  intro fuel
  induction fuel with
  | zero => intro s i hi; simp [pyRangeAux] at hi
  | succ f ih =>
    intro s i hi
    by_cases hlt : s < stop
    · simp only [pyRangeAux, hlt, if_true] at hi
      cases hrest : pyRangeAux stop step f (s + step) with
      | nil => rw [hrest] at hi; simp at hi
      | cons b t =>
        rw [hrest] at hi
        rw [List.dropLast_cons_of_ne_nil (by simp)] at hi
        rcases List.mem_cons.mp hi with hi | hi
        · have hh := pyRangeAux_head stop step f (s + step) b (by rw [hrest]; rfl)
          omega
        · have := ih (s + step) i (by rw [hrest]; exact hi)
          omega
    · simp [pyRangeAux, hlt] at hi

theorem pyRangeAux_mem_lt (stop step : Nat) :
    ∀ (fuel s : Nat), ∀ i ∈ pyRangeAux stop step fuel s, i < stop := by
  intro fuel
  induction fuel with
  | zero => intro s i hi; simp [pyRangeAux] at hi
  | succ f ih =>
    intro s i hi
    by_cases hlt : s < stop
    · simp only [pyRangeAux, hlt, if_true, List.mem_cons] at hi
      rcases hi with hi | hi
      · omega
      · exact ih (s + step) i hi
    · simp [pyRangeAux, hlt] at hi

/-! ### Key codec lemmas -/

theorem P_FIELD_lt_hex : P_FIELD < 16 ^ 64 := by decide

theorem P_FIELD_odd : P_FIELD % 2 = 1 := by decide

theorem pointToCompressedHex_drop2 (x y : Nat) :
    (pointToCompressedHex x y).drop 2 = toHex64 x := by
  unfold pointToCompressedHex
  by_cases h : y % 2 = 0 <;> simp [h]

/-- The compressed branch of `hex_to_point` for an 02 input, as a formula. -/
theorem hexToPoint_02 (tail : List Char) (x : Nat) (hx : hexParse tail = some x) :
    hexToPoint ('0' :: '2' :: tail) =
      .ok (x,
        if powMod ((x * x * x + A * x + B) % P_FIELD) ((P_FIELD + 1) / 4) P_FIELD % 2 = 1
        then P_FIELD - powMod ((x * x * x + A * x + B) % P_FIELD) ((P_FIELD + 1) / 4) P_FIELD
        else powMod ((x * x * x + A * x + B) % P_FIELD) ((P_FIELD + 1) / 4) P_FIELD) := by
  have h04 : startsWithCh ('0' :: '2' :: tail) ['0', '4'] = false := rfl
  have h02 : (startsWithCh ('0' :: '2' :: tail) ['0', '2'] ||
      startsWithCh ('0' :: '2' :: tail) ['0', '3']) = true := rfl
  have htake : ('0' :: '2' :: tail).take 2 = ['0', '2'] := rfl
  have hdrop : ('0' :: '2' :: tail).drop 2 = tail := rfl
  have hpfx : hexParse ['0', '2'] = some 2 := rfl
  simp only [hexToPoint, h04, Bool.false_eq_true, if_false, h02, if_true,
    htake, hdrop, hpfx, hx]
  set y0 := powMod ((x * x * x + A * x + B) % P_FIELD) ((P_FIELD + 1) / 4) P_FIELD with hy0
  by_cases h1 : y0 % 2 = 1
  · have h0 : ¬(y0 % 2 = 0) := by omega
    simp [h1, h0]
  · have h0 : y0 % 2 = 0 := by omega
    simp [h1, h0]

/-- The compressed branch of `hex_to_point` for an 03 input, as a formula. -/
theorem hexToPoint_03 (tail : List Char) (x : Nat) (hx : hexParse tail = some x) :
    hexToPoint ('0' :: '3' :: tail) =
      .ok (x,
        if powMod ((x * x * x + A * x + B) % P_FIELD) ((P_FIELD + 1) / 4) P_FIELD % 2 = 0
        then P_FIELD - powMod ((x * x * x + A * x + B) % P_FIELD) ((P_FIELD + 1) / 4) P_FIELD
        else powMod ((x * x * x + A * x + B) % P_FIELD) ((P_FIELD + 1) / 4) P_FIELD) := by
  have h04 : startsWithCh ('0' :: '3' :: tail) ['0', '4'] = false := rfl
  have h02 : (startsWithCh ('0' :: '3' :: tail) ['0', '2'] ||
      startsWithCh ('0' :: '3' :: tail) ['0', '3']) = true := rfl
  have htake : ('0' :: '3' :: tail).take 2 = ['0', '3'] := rfl
  have hdrop : ('0' :: '3' :: tail).drop 2 = tail := rfl
  have hpfx : hexParse ['0', '3'] = some 3 := rfl
  simp only [hexToPoint, h04, Bool.false_eq_true, if_false, h02, if_true,
    htake, hdrop, hpfx, hx]
  set y0 := powMod ((x * x * x + A * x + B) % P_FIELD) ((P_FIELD + 1) / 4) P_FIELD with hy0
  by_cases h1 : y0 % 2 = 0
  · have h0 : ¬(y0 % 2 = 1) := by omega
    simp [h1, h0]
  · have h0 : y0 % 2 = 1 := by omega
    simp [h1, h0]

/-- Decoding the compressed encoding of any point with an in-range X succeeds and
returns the same X with a Y of the same parity. -/
theorem decode_encode (x y : Nat) :
    ∃ y2, hexToPoint (pointToCompressedHex x y) = .ok (x, y2) ∧ y2 % 2 = y % 2 := by
  have hp := P_FIELD_pos
  have hodd := P_FIELD_odd
  set y0 := powMod ((x * x * x + A * x + B) % P_FIELD) ((P_FIELD + 1) / 4) P_FIELD with hy0
  have hy0lt : y0 < P_FIELD := powMod_lt _ _ _ hp
  unfold pointToCompressedHex
  by_cases hy : y % 2 = 0
  · simp only [hy, if_true]
    have hcons : ((['0', '2'] : List Char) ++ toHex64 x) = '0' :: '2' :: toHex64 x := rfl
    rw [hcons, hexToPoint_02 (toHex64 x) x (hexParse_toHex64 x), ← hy0]
    by_cases h1 : y0 % 2 = 1
    · exact ⟨P_FIELD - y0, by simp [h1], by omega⟩
    · exact ⟨y0, by simp [h1], by omega⟩
  · simp only [hy, if_false]
    have hcons : ((['0', '3'] : List Char) ++ toHex64 x) = '0' :: '3' :: toHex64 x := rfl
    rw [hcons, hexToPoint_03 (toHex64 x) x (hexParse_toHex64 x), ← hy0]
    by_cases h1 : y0 % 2 = 0
    · exact ⟨P_FIELD - y0, by simp [h1], by omega⟩
    · exact ⟨y0, by simp [h1], by omega⟩

/-- Same-parity Y values give the same compressed encoding. -/
theorem encode_parity_eq {x y y2 : Nat} (h : y2 % 2 = y % 2) :
    pointToCompressedHex x y2 = pointToCompressedHex x y := by
  unfold pointToCompressedHex
  by_cases hy : y % 2 = 0
  · rw [hy] at h; simp [hy, h]
  · have h2 : ¬(y2 % 2 = 0) := by omega
    simp [hy, h2]

/-! ### Worker lemmas -/

theorem workerStep_some {Px Py Z : Nat} {binOn : Bool} {i : Nat} {r : ResultRecord}
    (h : workerStep Px Py Z binOn i = some r) :
    ∃ qx qy sx sy,
      scalarMul ((i * Z) % ORDER) GEN = .aff qx qy ∧
      pointAdd (.aff Px Py) (.aff qx (negModP qy)) = .aff sx sy ∧
      r.offset = i * Z ∧
      r.hex = pointToCompressedHex sx sy ∧
      r.line = pointToCompressedHex sx sy ++ lineTail (i * Z) ∧
      (binOn = true → fromhexBytes (toHex64 sx) = some r.bin ∧ r.bin.length = 32) ∧
      (binOn = false → r.bin = []) := by
  cases hq : scalarMul ((i * Z) % ORDER) GEN with
  | inf =>
    simp only [workerStep, hq] at h
    exact Option.noConfusion h
  | aff qx qy =>
    simp only [workerStep, hq] at h
    cases hs : pointAdd (.aff Px Py) (.aff qx (negModP qy)) with
    | inf =>
      simp only [hs] at h
      exact Option.noConfusion h
    | aff sx sy =>
      simp only [hs] at h
      have hsxlt : sx < P_FIELD := (pointAdd_aff_lt hs).1
      have hsx : sx < 16 ^ 64 := lt_trans hsxlt P_FIELD_lt_hex
      refine ⟨qx, qy, sx, sy, rfl, hs, ?_⟩
      cases binOn with
      | false =>
        simp only [Bool.false_eq_true, if_false, Option.some_inj] at h
        subst h
        exact ⟨rfl, rfl, rfl, by intro hc; exact Bool.noConfusion hc, fun _ => rfl⟩
      | true =>
        simp only [if_true, pointToCompressedHex_drop2] at h
        obtain ⟨bs, hbs, hlen⟩ := fromhex_toHex64 hsx
        rw [hbs] at h
        simp only [Option.some_inj] at h
        subst h
        refine ⟨rfl, rfl, rfl, fun _ => ⟨hbs, hlen⟩, fun hc => Bool.noConfusion hc⟩

theorem workerStep_isSome {Px Py Z : Nat} (binOn : Bool) {i qx qy sx sy : Nat}
    (hq : scalarMul ((i * Z) % ORDER) GEN = .aff qx qy)
    (hs : pointAdd (.aff Px Py) (.aff qx (negModP qy)) = .aff sx sy) :
    (workerStep Px Py Z binOn i).isSome := by
  simp only [workerStep, hq, hs]
  have hsx : sx < 16 ^ 64 := lt_trans (pointAdd_aff_lt hs).1 P_FIELD_lt_hex
  cases binOn with
  | false => simp
  | true =>
    obtain ⟨bs, hbs, -⟩ := fromhex_toHex64 hsx
    simp only [if_true, pointToCompressedHex_drop2, hbs]
    rfl

theorem workerStep_none_inf {Px Py Z : Nat} {binOn : Bool} {i : Nat}
    (hq : scalarMul ((i * Z) % ORDER) GEN = .inf) :
    workerStep Px Py Z binOn i = none := by
  simp only [workerStep, hq]

theorem workerBlock_length {Px Py Z s e : Nat} {binOn : Bool}
    {recs : List ResultRecord}
    (h : workerBlock Px Py Z binOn (s, e) = some recs) : recs.length = e - s := by
  simp only [workerBlock] at h
  have := optMap_length _ _ _ h
  simpa [List.length_range'] using this

theorem workerBlock_get {Px Py Z s e : Nat} {binOn : Bool}
    {recs : List ResultRecord}
    (h : workerBlock Px Py Z binOn (s, e) = some recs)
    (j : Nat) (hj : j < recs.length) :
    workerStep Px Py Z binOn (s + j) = some (recs.get ⟨j, hj⟩) := by
  simp only [workerBlock] at h
  have hlen := optMap_length _ _ _ h
  rw [List.length_range'] at hlen
  have hj2 : j < (List.range' s (e - s)).length := by
    rw [List.length_range']; omega
  have := optMap_get _ _ _ h j hj2 hj
  rw [List.get_eq_getElem, List.getElem_range'] at this
  simpa using this

/-! ### Output-stream lemmas -/

theorem txtWrites_append :
    ∀ e1 e2 : List Ev, txtWrites (e1 ++ e2) = txtWrites e1 ++ txtWrites e2 := by
  intro e1
  induction e1 with
  | nil => intro e2; rfl
  | cons a t ih =>
    intro e2
    cases a <;> simp only [List.cons_append, txtWrites, List.append_eq, ih]

theorem binBytes_append :
    ∀ e1 e2 : List Ev, binBytes (e1 ++ e2) = binBytes e1 ++ binBytes e2 := by
  intro e1
  induction e1 with
  | nil => intro e2; rfl
  | cons a t ih =>
    intro e2
    cases a <;> simp only [List.cons_append, binBytes, List.append_eq, ih, List.append_assoc]

theorem txtWrites_map_line :
    ∀ recs : List ResultRecord,
      txtWrites (recs.map (fun r => Ev.txtWrite r.line)) = recs.map (fun r => r.line) := by
  intro recs
  induction recs with
  | nil => rfl
  | cons r t ih => simp only [List.map_cons, txtWrites, ih]

theorem binBytes_map_line :
    ∀ recs : List ResultRecord,
      binBytes (recs.map (fun r => Ev.txtWrite r.line)) = [] := by
  intro recs
  induction recs with
  | nil => rfl
  | cons r t ih => simp only [List.map_cons, binBytes, ih]

theorem txtWrites_blockEvents (binOn : Bool) (recs : List ResultRecord) :
    txtWrites (blockEvents binOn recs) = recs.map (fun r => r.line) := by
  unfold blockEvents
  rw [txtWrites_append, txtWrites_map_line]
  cases binOn <;> simp [txtWrites]

theorem binBytes_blockEvents (binOn : Bool) (recs : List ResultRecord) :
    binBytes (blockEvents binOn recs) =
      (if binOn then (recs.map (fun r => r.bin)).flatten else []) := by
  unfold blockEvents
  rw [binBytes_append, binBytes_map_line]
  cases binOn <;> simp [binBytes]

theorem writeBlocks_spec (Px Py Z : Nat) (binOn : Bool) :
    ∀ (bs : List (Nat × Nat)) (recs : List ResultRecord),
      joinM (bs.map (workerBlock Px Py Z binOn)) = some recs →
      (writeBlocks Px Py Z binOn bs).2 = .ok () ∧
      txtWrites (writeBlocks Px Py Z binOn bs).1 = recs.map (fun r => r.line) ∧
      binBytes (writeBlocks Px Py Z binOn bs).1 =
        (if binOn then (recs.map (fun r => r.bin)).flatten else []) := by
  intro bs
  induction bs with
  | nil =>
    intro recs h
    simp only [List.map_nil, joinM, Option.some_inj] at h
    subst h
    exact ⟨rfl, rfl, by cases binOn <;> rfl⟩
  | cons b t ih =>
    intro recs h
    simp only [List.map_cons, joinM] at h
    cases hwb : workerBlock Px Py Z binOn b with
    | none => rw [hwb] at h; simp at h
    | some recs1 =>
      rw [hwb] at h
      cases hjt : joinM (t.map (workerBlock Px Py Z binOn)) with
      | none => rw [hjt] at h; simp at h
      | some recs2 =>
        rw [hjt] at h
        simp only [Option.some_bind, Option.some_inj] at h
        obtain ⟨hok, htxt, hbin⟩ := ih recs2 hjt
        have hw : writeBlocks Px Py Z binOn (b :: t) =
            (blockEvents binOn recs1 ++ (writeBlocks Px Py Z binOn t).1,
              (writeBlocks Px Py Z binOn t).2) := by
          simp only [writeBlocks, hwb]
        rw [hw]
        refine ⟨hok, ?_, ?_⟩
        · rw [txtWrites_append, txtWrites_blockEvents, htxt, ← h,
            List.map_append]
        · rw [binBytes_append, binBytes_blockEvents, hbin, ← h]
          cases binOn <;> simp

theorem writeBlocks_ok (Px Py Z : Nat) (binOn : Bool) :
    ∀ bs : List (Nat × Nat), (writeBlocks Px Py Z binOn bs).2 = .ok () →
      ∃ recs, joinM (bs.map (workerBlock Px Py Z binOn)) = some recs := by
  intro bs
  induction bs with
  | nil => intro _; exact ⟨[], rfl⟩
  | cons b t ih =>
    intro hok
    cases hwb : workerBlock Px Py Z binOn b with
    | none =>
      simp only [writeBlocks, hwb] at hok
      exact Except.noConfusion hok
    | some recs1 =>
      simp only [writeBlocks, hwb] at hok
      obtain ⟨recs2, hjt⟩ := ih hok
      refine ⟨recs1 ++ recs2, ?_⟩
      simp only [List.map_cons, joinM, hwb, hjt, Option.some_bind]

/-! ### Converter lemmas -/

theorem finalHex_length {line x : List Char} (h : finalHex line = some x) :
    x.length = 64 := by
  unfold finalHex at h
  set p := payloadOf line with hp
  by_cases h0 : p = []
  · simp [h0] at h
  · simp only [h0, if_false] at h
    by_cases h64 : p.length = 64
    · simp only [h64, if_true, Option.some_inj] at h
      subst h; exact h64
    · simp only [h64, if_false] at h
      by_cases h66 : p.length = 66
      · simp only [h66, if_true, Option.some_inj] at h
        subst h; simp [List.length_drop, h66]
      · simp only [h66, if_false] at h
        by_cases h130 : p.length = 130
        · simp only [h130, if_true, Option.some_inj] at h
          subst h
          simp [List.length_take, List.length_drop, h130]
        · simp [h130] at h

theorem processLine_of_finalHex_none {line : List Char} (h : finalHex line = none) :
    processLine line = .empty ∨ processLine line = .skipped := by
  unfold finalHex at h
  unfold processLine
  set p := payloadOf line with hp
  by_cases h0 : p = []
  · left; simp [h0]
  · simp only [h0, if_false] at h ⊢
    by_cases h64 : p.length = 64
    · simp [h64] at h
    · simp only [h64, if_false] at h ⊢
      by_cases h66 : p.length = 66
      · simp [h66] at h
      · simp only [h66, if_false] at h ⊢
        by_cases h130 : p.length = 130
        · simp [h130] at h
        · right; simp [h130]

theorem processLine_of_finalHex_some {line x : List Char} (h : finalHex line = some x) :
    processLine line = fromhexRes x := by
  unfold finalHex at h
  unfold processLine
  set p := payloadOf line with hp
  by_cases h0 : p = []
  · simp [h0] at h
  · simp only [h0, if_false] at h ⊢
    by_cases h64 : p.length = 64
    · simp only [h64, if_true, Option.some_inj] at h
      subst h
      simp [h64]
    · simp only [h64, if_false] at h ⊢
      by_cases h66 : p.length = 66
      · simp only [h66, if_true, Option.some_inj] at h
        subst h
        simp [h64, h66]
      · simp only [h66, if_false] at h ⊢
        by_cases h130 : p.length = 130
        · simp only [h130, if_true, Option.some_inj] at h
          subst h
          simp [h64, h66, h130]
        · simp [h130] at h

theorem processLine_wrote {line : List Char} {bs : List Nat}
    (h : processLine line = .wrote bs) :
    ∃ x, finalHex line = some x ∧ fromhexBytes x = some bs ∧ x.length = 64 := by
  cases hf : finalHex line with
  | none =>
    rcases processLine_of_finalHex_none hf with h2 | h2 <;>
      rw [h2] at h <;> exact LineRes.noConfusion h
  | some x =>
    have h2 := processLine_of_finalHex_some hf
    rw [h2] at h
    unfold fromhexRes at h
    cases hfb : fromhexBytes x with
    | none => rw [hfb] at h; exact LineRes.noConfusion h
    | some bs2 =>
      rw [hfb] at h
      injection h with h3
      subst h3
      exact ⟨x, rfl, hfb, finalHex_length hf⟩

theorem conv_fold_aux :
    ∀ (lines : List (List Char)) (st : ConvState),
      (∀ l ∈ lines, ∀ x, finalHex l = some x → ∀ c ∈ x, isAsciiSpace c = false) →
      (List.foldl convStep st lines).out.length + 32 * st.count =
        st.out.length + 32 * (List.foldl convStep st lines).count := by
  intro lines
  induction lines with
  | nil => intro st _; rfl
  | cons l t ih =>
    intro st hsp
    have hst : List.foldl convStep st (l :: t) =
        List.foldl convStep (convStep st l) t := rfl
    rw [hst]
    have htail : ∀ l2 ∈ t, ∀ x, finalHex l2 = some x → ∀ c ∈ x, isAsciiSpace c = false :=
      fun l2 hl2 => hsp l2 (by simp [hl2])
    have hih := ih (convStep st l) htail
    cases hp : processLine l with
    | empty =>
      have : convStep st l = st := by simp [convStep, hp]
      rw [this] at hih ⊢
      omega
    | skipped =>
      have : convStep st l = { st with skip := st.skip + 1 } := by simp [convStep, hp]
      rw [this] at hih ⊢
      simp only at hih ⊢
      omega
    | wrote bs =>
      obtain ⟨x, hfx, hfb, hxlen⟩ := processLine_wrote hp
      have hnospace : ∀ c ∈ x, isAsciiSpace c = false :=
        fun c hc => hsp l (by simp) x hfx c hc
      have hblen := fromhexBytes_len hfb hnospace
      rw [hxlen] at hblen
      have : convStep st l =
          { st with count := st.count + 1, out := st.out ++ bs } := by
        simp [convStep, hp]
      rw [this] at hih ⊢
      simp only [List.length_append] at hih ⊢
      omega

/-! ### Pipeline bridging lemmas -/

/-- Concatenating the per-block worker results in block-submission order is
the same computation as one sequential pass over `i = 1 .. Y`. -/
theorem pipeline_eq_seq (Px Py Z Y Bsz : Nat) (binOn : Bool) (hB : 0 < Bsz) :
    pipelineRecs Px Py Z Y Bsz binOn = workerBlock Px Py Z binOn (1, Y + 1) := by
  have htile := pyRangeAux_tile (Y + 1) Bsz hB Y 1 (by omega)
  have hY : Y + 1 - 1 = Y := by omega
  unfold pipelineRecs mkBlocks pyRange
  rw [hY]
  have hmaps :
      ((pyRangeAux (Y + 1) Bsz Y 1).map
        (fun i => (i, min (i + Bsz) (Y + 1)))).map (workerBlock Px Py Z binOn) =
      ((pyRangeAux (Y + 1) Bsz Y 1).map
        (fun i => List.range' i (min (i + Bsz) (Y + 1) - i))).map
        (optMap (workerStep Px Py Z binOn)) := by
    rw [List.map_map, List.map_map]
    rfl
  rw [hmaps, joinM_optMap, htile]
  show optMap (workerStep Px Py Z binOn) (List.range' 1 (Y + 1 - 1)) = _
  rw [hY]
  rfl

theorem sum_lengths_const {α : Type} (g : α → List Nat) (n : Nat) :
    ∀ l : List α, (∀ a ∈ l, (g a).length = n) →
      ((l.map g).map List.length).sum = n * l.length := by
  intro l
  induction l with
  | nil => intro _; simp
  | cons a t ih =>
    intro h
    simp only [List.map_cons, List.sum_cons, List.length_cons,
      ih (fun x hx => h x (by simp [hx])), h a (by simp)]
    ring

theorem startsWith_02_shape {s : List Char} (h : startsWithCh s ['0', '2'] = true) :
    ∃ t, s = '0' :: '2' :: t := by
  match s with
  | [] => exact Bool.noConfusion h
  | [c] =>
    simp only [startsWithCh, prefixMatches, Bool.and_eq_true] at h
    exact absurd h.2 (by simp [prefixMatches])
  | c :: c2 :: t =>
    simp only [startsWithCh, prefixMatches, Bool.and_eq_true, beq_iff_eq] at h
    obtain ⟨h1, h2, -⟩ := h
    exact ⟨t, by rw [h1, h2]⟩

theorem startsWith_03_shape {s : List Char} (h : startsWithCh s ['0', '3'] = true) :
    ∃ t, s = '0' :: '3' :: t := by
  match s with
  | [] => exact Bool.noConfusion h
  | [c] =>
    simp only [startsWithCh, prefixMatches, Bool.and_eq_true] at h
    exact absurd h.2 (by simp [prefixMatches])
  | c :: c2 :: t =>
    simp only [startsWithCh, prefixMatches, Bool.and_eq_true, beq_iff_eq] at h
    obtain ⟨h1, h2, -⟩ := h
    exact ⟨t, by rw [h1, h2]⟩

theorem mainModel_ok_parts {pub : List Char} {X Y : Nat} {binOn : Bool} {Bsz : Nat}
    {Px Py : Nat} {evs : List Ev}
    (hdec : hexToPoint pub = .ok (Px, Py))
    (hrun : mainModel pub (some X) Y binOn Bsz = (evs, .ok ())) :
    Y % 2 = 0 ∧ Y ≠ 0 ∧
    ∃ recs,
      joinM ((mkBlocks Y Bsz).map (workerBlock Px Py (X / Y) binOn)) = some recs ∧
      txtWrites evs =
        (pointToCompressedHex Px Py ++ headerTail) :: recs.map (fun r => r.line) ∧
      (binOn = true → ∃ hbs, fromhexBytes (toHex64 Px) = some hbs ∧
        binBytes evs = hbs ++ (recs.map (fun r => r.bin)).flatten) ∧
      (binOn = false → binBytes evs = []) := by
  simp only [mainModel, hdec] at hrun
  by_cases hodd : Y % 2 ≠ 0
  · rw [if_pos hodd] at hrun
    have := congrArg Prod.snd hrun
    simp at this
  · rw [if_neg hodd] at hrun
    have hY2 : Y % 2 = 0 := by omega
    by_cases hY0 : Y = 0
    · rw [if_pos hY0] at hrun
      have := congrArg Prod.snd hrun
      simp at this
    · rw [if_neg hY0] at hrun
      refine ⟨hY2, hY0, ?_⟩
      cases binOn with
      | true =>
        simp only [if_true, pointToCompressedHex_drop2] at hrun
        cases hfh : fromhexBytes (toHex64 Px) with
        | none =>
          rw [hfh] at hrun
          have := congrArg Prod.snd hrun
          simp at this
        | some hbs =>
          rw [hfh] at hrun
          have h1 := congrArg Prod.fst hrun
          have h2 := congrArg Prod.snd hrun
          simp only at h1 h2
          obtain ⟨recs, hjoin⟩ := writeBlocks_ok Px Py (X / Y) true _ h2
          obtain ⟨-, htxt, hbin2⟩ := writeBlocks_spec Px Py (X / Y) true _ recs hjoin
          refine ⟨recs, hjoin, ?_, ?_, ?_⟩
          · rw [← h1]
            simp only [List.cons_append, List.append_eq, List.nil_append,
              txtWrites_append, txtWrites]
            rw [htxt]
          · intro _
            refine ⟨hbs, rfl, ?_⟩
            rw [← h1]
            simp only [List.cons_append, List.append_eq, List.nil_append,
              binBytes_append, binBytes]
            rw [hbin2]
            simp
          · intro hc; exact Bool.noConfusion hc
      | false =>
        simp only [Bool.false_eq_true, if_false] at hrun
        have h1 := congrArg Prod.fst hrun
        have h2 := congrArg Prod.snd hrun
        simp only at h1 h2
        obtain ⟨recs, hjoin⟩ := writeBlocks_ok Px Py (X / Y) false _ h2
        obtain ⟨-, htxt, hbin2⟩ := writeBlocks_spec Px Py (X / Y) false _ recs hjoin
        refine ⟨recs, hjoin, ?_, ?_, ?_⟩
        · rw [← h1]
          simp only [List.cons_append, List.append_eq, List.nil_append,
            txtWrites_append, txtWrites]
          rw [htxt]
        · intro hc; exact Bool.noConfusion hc
        · intro _
          rw [← h1]
          simp only [List.cons_append, List.append_eq, List.nil_append,
            binBytes_append, binBytes]
          rw [hbin2]
          simp

/-! ## Claims -/

/-- C4: for every `Y ≥ 1` and block size `B ≥ 1` the generated block list
consists of the half-open intervals `[i, min(i+B, Y+1))` for
`i = 1, 1+B, 1+2B, ...`; the blocks are contiguous, pairwise non-overlapping
and in ascending start order, their union (in order) is exactly `[1, Y]`,
every block has size at most `B`, and every block except possibly the last
has size exactly `B`. -/
theorem claim_C4 (Y Bsz : Nat) (hY : 1 ≤ Y) (hB : 1 ≤ Bsz) :
    (∀ j, j < (mkBlocks Y Bsz).length →
        (mkBlocks Y Bsz)[j]? =
          some (1 + Bsz * j, min (1 + Bsz * j + Bsz) (Y + 1))) ∧
    ((mkBlocks Y Bsz).map (fun b => List.range' b.1 (b.2 - b.1))).flatten =
      List.range' 1 Y ∧
    List.Chain' (fun b c : Nat × Nat => b.2 = c.1 ∧ b.1 < c.1) (mkBlocks Y Bsz) ∧
    (∀ b ∈ mkBlocks Y Bsz, b.2 - b.1 ≤ Bsz) ∧
    (∀ b ∈ (mkBlocks Y Bsz).dropLast, b.2 - b.1 = Bsz) := by
  have hYY : Y + 1 - 1 = Y := by omega
  have hpr : pyRange 1 (Y + 1) Bsz = pyRangeAux (Y + 1) Bsz Y 1 := by
    unfold pyRange
    rw [hYY]
  refine ⟨?_, ?_, ?_, ?_, ?_⟩
  · intro j hj
    have hj2 : j < (pyRangeAux (Y + 1) Bsz Y 1).length := by
      simpa [mkBlocks, hpr] using hj
    have hstart : (pyRangeAux (Y + 1) Bsz Y 1)[j] = 1 + Bsz * j := by
      have hg := pyRangeAux_get (Y + 1) Bsz Y 1 j hj2
      rw [List.get_eq_getElem] at hg
      exact hg
    unfold mkBlocks
    rw [hpr, List.getElem?_map, List.getElem?_eq_getElem hj2, hstart,
      Option.map_some']
  · unfold mkBlocks
    rw [hpr, List.map_map]
    have htile := pyRangeAux_tile (Y + 1) Bsz hB Y 1 (by omega)
    rw [hYY] at htile
    exact htile
  · unfold mkBlocks
    rw [hpr, List.chain'_map]
    exact pyRangeAux_chain (Y + 1) Bsz hB Y 1
  · intro b hb
    unfold mkBlocks at hb
    rw [hpr] at hb
    obtain ⟨i, hi, rfl⟩ := List.mem_map.mp hb
    simp only
    omega
  · intro b hb
    unfold mkBlocks at hb
    rw [hpr, ← List.map_dropLast] at hb
    obtain ⟨i, hi, rfl⟩ := List.mem_map.mp hb
    have := pyRangeAux_dropLast (Y + 1) Bsz Y 1 i hi
    simp only
    omega

theorem claim_C4_witness :
    ((mkBlocks 5 2).map (fun b => List.range' b.1 (b.2 - b.1))).flatten =
      List.range' 1 5 :=
  (claim_C4 5 2 (by decide) (by decide)).2.1

/-- C3: the output is a function of the inputs only, not of worker count or
scheduling.  Concatenating the per-block worker results of the
block-partitioned pipeline in block-submission order (which is how
`pool.imap` results are consumed) computes exactly the same value as one
sequential pass over `i = 1..Y`, and therefore the bytes appended to the
text and binary sinks coincide with those of the sequential pass. -/
theorem claim_C3 (Px Py Z Y Bsz : Nat) (binOn : Bool) (hB : 0 < Bsz) :
    pipelineRecs Px Py Z Y Bsz binOn = workerBlock Px Py Z binOn (1, Y + 1) ∧
    (∀ recs, workerBlock Px Py Z binOn (1, Y + 1) = some recs →
      txtWrites (writeBlocks Px Py Z binOn (mkBlocks Y Bsz)).1 =
        recs.map (fun r => r.line) ∧
      binBytes (writeBlocks Px Py Z binOn (mkBlocks Y Bsz)).1 =
        (if binOn then (recs.map (fun r => r.bin)).flatten else [])) := by
  have hmain := pipeline_eq_seq Px Py Z Y Bsz binOn hB
  refine ⟨hmain, ?_⟩
  intro recs hrecs
  have hjoin : joinM ((mkBlocks Y Bsz).map (workerBlock Px Py Z binOn)) = some recs := by
    have : pipelineRecs Px Py Z Y Bsz binOn = some recs := by rw [hmain, hrecs]
    exact this
  obtain ⟨-, htxt, hbin⟩ := writeBlocks_spec Px Py Z binOn _ recs hjoin
  exact ⟨htxt, hbin⟩

theorem claim_C3_witness :
    pipelineRecs GEN_X GEN_Y 1 2 1 false = workerBlock GEN_X GEN_Y 1 false (1, 3) :=
  (claim_C3 GEN_X GEN_Y 1 2 1 false (by decide)).1

/-- C1: every record `worker_block` emits for an index `i` carries the offset
`i·Z` and the compressed-hex encoding of `P + negate(((i·Z) mod order)·G)`,
where negation maps `(x, y)` to `(x, (p − y) mod p)`; each output line is
therefore recomputable from `P`, `Z`, `i` and the curve parameters alone. -/
theorem claim_C1 (Px Py Z s e : Nat) (binOn : Bool) (recs : List ResultRecord)
    (h : workerBlock Px Py Z binOn (s, e) = some recs) :
    recs.length = e - s ∧
    ∀ j (hj : j < recs.length),
      (recs.get ⟨j, hj⟩).offset = (s + j) * Z ∧
      ∃ qx qy sx sy,
        scalarMul (((s + j) * Z) % ORDER) GEN = Point.aff qx qy ∧
        pointAdd (Point.aff Px Py) (Point.aff qx ((P_FIELD - qy) % P_FIELD)) =
          Point.aff sx sy ∧
        (recs.get ⟨j, hj⟩).hex = pointToCompressedHex sx sy ∧
        (recs.get ⟨j, hj⟩).line =
          pointToCompressedHex sx sy ++ lineTail ((s + j) * Z) := by
  refine ⟨workerBlock_length h, ?_⟩
  intro j hj
  have hstep := workerBlock_get h j hj
  obtain ⟨qx, qy, sx, sy, hq, hs, hoff, hhex, hline, -, -⟩ := workerStep_some hstep
  have hqy : qy < P_FIELD := (scalarMul_GEN_lt hq).2
  rw [negModP_eq hqy] at hs
  exact ⟨hoff, qx, qy, sx, sy, hq, hs, hhex, hline⟩

theorem claim_C1_witness :
    workerBlock GEN_X GEN_Y 1 false (2, 3) = some [c1rec] ∧ [c1rec].length = 3 - 2 :=
  have h : workerBlock GEN_X GEN_Y 1 false (2, 3) = some [c1rec] := by decide
  ⟨h, (claim_C1 GEN_X GEN_Y 1 2 3 false [c1rec] h).1⟩

/-- C9: the per-index computation of `worker_block` is defined exactly when
every intermediate point is affine.  If `(i·Z) mod order = 0` the scalar
multiple is the point at infinity and the step crashes; in particular a
stride `Z = 0` makes every index crash.  A step succeeds if and only if the
scalar multiple and the sum are affine, and (for reduced `P`) the sum is the
point at infinity exactly when `P` equals the scalar multiple; under those
affineness preconditions the whole block is total. -/
theorem claim_C9 (Px Py Z : Nat) (binOn : Bool) :
    (∀ i, (i * Z) % ORDER = 0 → workerStep Px Py Z binOn i = none) ∧
    (Z = 0 → ∀ i, workerStep Px Py Z binOn i = none) ∧
    (∀ i, (∃ r, workerStep Px Py Z binOn i = some r) ↔
      ∃ qx qy sx sy, scalarMul ((i * Z) % ORDER) GEN = .aff qx qy ∧
        pointAdd (.aff Px Py) (.aff qx (negModP qy)) = .aff sx sy) ∧
    (Py < P_FIELD → ∀ i qx qy, scalarMul ((i * Z) % ORDER) GEN = .aff qx qy →
      (pointAdd (.aff Px Py) (.aff qx (negModP qy)) = .inf ↔ (Px = qx ∧ Py = qy))) ∧
    (∀ s e, (∀ i ∈ List.range' s (e - s),
        ∃ qx qy sx sy, scalarMul ((i * Z) % ORDER) GEN = .aff qx qy ∧
          pointAdd (.aff Px Py) (.aff qx (negModP qy)) = .aff sx sy) →
      ∃ recs, workerBlock Px Py Z binOn (s, e) = some recs) := by
  refine ⟨?_, ?_, ?_, ?_, ?_⟩
  · intro i hk
    exact workerStep_none_inf (by rw [hk]; rfl)
  · intro hZ i
    refine workerStep_none_inf ?_
    rw [hZ, Nat.mul_zero, Nat.zero_mod]
    rfl
  · intro i
    constructor
    · rintro ⟨r, hr⟩
      obtain ⟨qx, qy, sx, sy, hq, hs, -⟩ := workerStep_some hr
      exact ⟨qx, qy, sx, sy, hq, hs⟩
    · rintro ⟨qx, qy, sx, sy, hq, hs⟩
      exact Option.isSome_iff_exists.mp (workerStep_isSome binOn hq hs)
  · intro hPy i qx qy hq
    have hqy : qy < P_FIELD := (scalarMul_GEN_lt hq).2
    rw [negModP_eq hqy, pointAdd_eq_inf_iff]
    constructor
    · rintro ⟨h1, h2⟩
      exact ⟨h1, (neg_cancel_iff hPy hqy).mp h2⟩
    · rintro ⟨h1, h2⟩
      exact ⟨h1, (neg_cancel_iff hPy hqy).mpr h2⟩
  · intro s e hall
    have : ∀ i ∈ List.range' s (e - s), (workerStep Px Py Z binOn i).isSome := by
      intro i hi
      obtain ⟨qx, qy, sx, sy, hq, hs⟩ := hall i hi
      exact workerStep_isSome binOn hq hs
    obtain ⟨out, hout⟩ := optMap_isSome _ _ this
    exact ⟨out, hout⟩

theorem claim_C9_witness :
    workerStep GEN_X GEN_Y 0 false 1 = none :=
  (claim_C9 GEN_X GEN_Y 0 false).2.1 rfl 1

theorem hexToPoint_02_err (tail : List Char) (hx : hexParse tail = none) :
    hexToPoint ('0' :: '2' :: tail) = .error .exn := by
  have h04 : startsWithCh ('0' :: '2' :: tail) ['0', '4'] = false := rfl
  have h02 : (startsWithCh ('0' :: '2' :: tail) ['0', '2'] ||
      startsWithCh ('0' :: '2' :: tail) ['0', '3']) = true := rfl
  have htake : ('0' :: '2' :: tail).take 2 = ['0', '2'] := rfl
  have hdrop : ('0' :: '2' :: tail).drop 2 = tail := rfl
  have hpfx : hexParse ['0', '2'] = some 2 := rfl
  simp only [hexToPoint, h04, Bool.false_eq_true, if_false, h02, if_true,
    htake, hdrop, hpfx, hx]

theorem hexToPoint_03_err (tail : List Char) (hx : hexParse tail = none) :
    hexToPoint ('0' :: '3' :: tail) = .error .exn := by
  have h04 : startsWithCh ('0' :: '3' :: tail) ['0', '4'] = false := rfl
  have h02 : (startsWithCh ('0' :: '3' :: tail) ['0', '2'] ||
      startsWithCh ('0' :: '3' :: tail) ['0', '3']) = true := rfl
  have htake : ('0' :: '3' :: tail).take 2 = ['0', '3'] := rfl
  have hdrop : ('0' :: '3' :: tail).drop 2 = tail := rfl
  have hpfx : hexParse ['0', '3'] = some 3 := rfl
  simp only [hexToPoint, h04, Bool.false_eq_true, if_false, h02, if_true,
    htake, hdrop, hpfx, hx]

/-- C7 (decode formula and encode format): decoding a compressed input parses
the 64-digit X, computes `alpha = (x^3 + a x + b) mod p` and the candidate
`y = alpha^((p+1)/4) mod p`, and flips `y -> p - y` exactly when the parity
disagrees with the prefix (02 = even, 03 = odd); encoding any point renders
the parity prefix followed by the X coordinate as exactly 64 lowercase
hexadecimal digits. -/
theorem claim_C7 :
    (∀ (tail : List Char) (x : Nat), hexParse tail = some x →
      hexToPoint ('0' :: '2' :: tail) =
        .ok (x,
          if ((x ^ 3 + A * x + B) % P_FIELD) ^ ((P_FIELD + 1) / 4) % P_FIELD % 2 = 1
          then P_FIELD - ((x ^ 3 + A * x + B) % P_FIELD) ^ ((P_FIELD + 1) / 4) % P_FIELD
          else ((x ^ 3 + A * x + B) % P_FIELD) ^ ((P_FIELD + 1) / 4) % P_FIELD)) ∧
    (∀ (tail : List Char) (x : Nat), hexParse tail = some x →
      hexToPoint ('0' :: '3' :: tail) =
        .ok (x,
          if ((x ^ 3 + A * x + B) % P_FIELD) ^ ((P_FIELD + 1) / 4) % P_FIELD % 2 = 0
          then P_FIELD - ((x ^ 3 + A * x + B) % P_FIELD) ^ ((P_FIELD + 1) / 4) % P_FIELD
          else ((x ^ 3 + A * x + B) % P_FIELD) ^ ((P_FIELD + 1) / 4) % P_FIELD)) ∧
    (∀ x y : Nat, x < 16 ^ 64 →
      pointToCompressedHex x y =
        (if y % 2 = 0 then ['0', '2'] else ['0', '3']) ++ toHex64 x ∧
      (toHex64 x).length = 64 ∧
      (∀ c ∈ toHex64 x, c ∈ lowerHexDigits) ∧
      hexParse (toHex64 x) = some x) := by
  have hconv : ∀ x : Nat,
      powMod ((x * x * x + A * x + B) % P_FIELD) ((P_FIELD + 1) / 4) P_FIELD =
        ((x ^ 3 + A * x + B) % P_FIELD) ^ ((P_FIELD + 1) / 4) % P_FIELD := by
    intro x
    rw [powMod_eq_pow, show x ^ 3 = x * x * x from by ring]
  refine ⟨?_, ?_, ?_⟩
  · intro tail x hx
    rw [hexToPoint_02 tail x hx, hconv]
  · intro tail x hx
    rw [hexToPoint_03 tail x hx, hconv]
  · intro x y hxlt
    exact ⟨rfl, toHex64_length hxlt, fun c hc => toHex64_mem_lower hc,
      hexParse_toHex64 x⟩

theorem claim_C7_witness :
    hexParse ['f', 'f'] = some 255 ∧
    hexToPoint ('0' :: '2' :: ['f', 'f']) =
      .ok (255,
        if ((255 ^ 3 + A * 255 + B) % P_FIELD) ^ ((P_FIELD + 1) / 4) % P_FIELD % 2 = 1
        then P_FIELD - ((255 ^ 3 + A * 255 + B) % P_FIELD) ^ ((P_FIELD + 1) / 4) % P_FIELD
        else ((255 ^ 3 + A * 255 + B) % P_FIELD) ^ ((P_FIELD + 1) / 4) % P_FIELD) ∧
    hexParse (toHex64 1) = some 1 :=
  have h : hexParse ['f', 'f'] = some 255 := by decide
  ⟨h, claim_C7.1 ['f', 'f'] 255 h, (claim_C7.2.2 1 2 (by decide)).2.2.2⟩

/-- C8: decode-then-re-encode is idempotent on every point the pipeline
produces: for every record a worker step emits, decoding its compressed hex
and re-encoding the result returns the same compressed hex. -/
theorem claim_C8 (Px Py Z : Nat) (binOn : Bool) (i : Nat) (r : ResultRecord)
    (h : workerStep Px Py Z binOn i = some r) :
    ∃ x2 y2, hexToPoint r.hex = .ok (x2, y2) ∧
      pointToCompressedHex x2 y2 = r.hex := by
  obtain ⟨qx, qy, sx, sy, -, -, -, hhex, -, -, -⟩ := workerStep_some h
  obtain ⟨y2, hdec, hpar⟩ := decode_encode sx sy
  refine ⟨sx, y2, ?_, ?_⟩
  · rw [hhex]; exact hdec
  · rw [hhex]; exact encode_parity_eq hpar

theorem claim_C8_witness :
    workerStep GEN_X GEN_Y 1 false 2 = some c8rec ∧
    ∃ x2 y2, hexToPoint c8rec.hex = .ok (x2, y2) ∧
      pointToCompressedHex x2 y2 = c8rec.hex :=
  have h : workerStep GEN_X GEN_Y 1 false 2 = some c8rec := by decide
  ⟨h, claim_C8 GEN_X GEN_Y 1 false 2 c8rec h⟩

/-- C5 (counterexample): a 04-prefixed input of the wrong length (67
characters instead of 130) is not rejected: `hex_to_point` decodes it
successfully, contradicting the claim that any 04/02/03-prefixed string of
the wrong length is rejected as a fatal input error. -/
theorem claim_C5_counterexample :
    ("0400000000000000000000000000000000000000000000000000000000000000001".toList).length = 67 ∧
    hexToPoint
      ("0400000000000000000000000000000000000000000000000000000000000000001".toList) =
      .ok (0, 1) :=
  ⟨by decide, by decide⟩

/-- C5 (amended): `decode` exits fatally exactly on the inputs whose first
two characters are not 02, 03 or 04 — for the three recognised prefixes no
length check is performed and no fatal exit can occur.  A 04-prefixed input
decodes the slices `[2:66]` and `[66:]` as raw X and Y and is accepted
whenever both slices parse under `int(_, 16)` — plain hexadecimal digits of
any positive length, including Python's tolerated surrounding whitespace,
`+` sign, `0x` marker and interior underscores — while an empty Y slice
(any total length of at most 66 characters) raises `ValueError`; a
02/03-prefixed input is likewise accepted via the square-root formula
whenever the tail `[2:]` parses, and an empty tail (length exactly 2)
raises `ValueError`. -/
theorem claim_C5 (s : List Char) :
    (startsWithCh s ['0', '4'] = false → startsWithCh s ['0', '2'] = false →
      startsWithCh s ['0', '3'] = false → hexToPoint s = .error .fatal) ∧
    ((startsWithCh s ['0', '4'] = true ∨ startsWithCh s ['0', '2'] = true ∨
        startsWithCh s ['0', '3'] = true) → hexToPoint s ≠ .error .fatal) ∧
    (startsWithCh s ['0', '4'] = true →
      (∀ x y, hexParse ((s.drop 2).take 64) = some x → hexParse (s.drop 66) = some y →
        hexToPoint s = .ok (x, y)) ∧
      (s.length ≤ 66 → hexToPoint s = .error .exn)) ∧
    (startsWithCh s ['0', '4'] = false →
      (startsWithCh s ['0', '2'] = true ∨ startsWithCh s ['0', '3'] = true) →
      (∀ x, hexParse (s.drop 2) = some x → ∃ y, hexToPoint s = .ok (x, y)) ∧
      (s.length = 2 → hexToPoint s = .error .exn)) := by
  refine ⟨?_, ?_, ?_, ?_⟩
  · intro h4 h2 h3
    simp [hexToPoint, h4, h2, h3]
  · intro hpre hcon
    by_cases h4 : startsWithCh s ['0', '4'] = true
    · simp only [hexToPoint, h4, if_true] at hcon
      cases hx : hexParse ((s.drop 2).take 64) <;>
        cases hy : hexParse (s.drop 66) <;>
          simp [hx, hy] at hcon
    · have h4f : startsWithCh s ['0', '4'] = false := by
        cases hsw : startsWithCh s ['0', '4']
        · rfl
        · exact absurd hsw h4
      have hor : (startsWithCh s ['0', '2'] || startsWithCh s ['0', '3']) = true := by
        rcases hpre with h | h | h
        · exact absurd h h4
        · simp [h]
        · simp [h]
      simp only [hexToPoint, h4f, Bool.false_eq_true, if_false, hor, if_true] at hcon
      cases hp : hexParse (s.take 2) <;>
        cases hx : hexParse (s.drop 2) <;>
          simp [hp, hx] at hcon
  · intro h4
    constructor
    · intro x y hx hy
      simp only [hexToPoint, h4, if_true, hx, hy]
    · intro hlen
      have hdrop : s.drop 66 = [] := List.drop_eq_nil_of_le hlen
      have hnone : hexParse (s.drop 66) = none := by rw [hdrop]; rfl
      simp only [hexToPoint, h4, if_true, hnone]
      cases hx : hexParse ((s.drop 2).take 64) <;> simp [hx]
  · intro h4 hpre
    rcases hpre with h02 | h03
    · obtain ⟨t, rfl⟩ := startsWith_02_shape h02
      have hd : ('0' :: '2' :: t).drop 2 = t := rfl
      rw [hd]
      refine ⟨fun x hsome => ⟨_, hexToPoint_02 t x hsome⟩, fun hlen => ?_⟩
      have ht : t = [] := by
        have : t.length = 0 := by simpa using hlen
        exact List.length_eq_zero.mp this
      subst ht
      exact hexToPoint_02_err [] rfl
    · obtain ⟨t, rfl⟩ := startsWith_03_shape h03
      have hd : ('0' :: '3' :: t).drop 2 = t := rfl
      rw [hd]
      refine ⟨fun x hsome => ⟨_, hexToPoint_03 t x hsome⟩, fun hlen => ?_⟩
      have ht : t = [] := by
        have : t.length = 0 := by simpa using hlen
        exact List.length_eq_zero.mp this
      subst ht
      exact hexToPoint_03_err [] rfl

theorem claim_C5_witness :
    hexParse (("021_1".toList).drop 2) = some 17 ∧
    ∃ y, hexToPoint ("021_1".toList) = .ok (17, y) :=
  have h : hexParse (("021_1".toList).drop 2) = some 17 := by decide
  ⟨h, ((claim_C5 ("021_1".toList)).2.2.2 (by decide)
    (Or.inl (by decide))).1 17 h⟩

/-- C6: every fatal validation error — bad public-key prefix, unparseable
range expression, or odd chunk count — terminates the run with an error
before any output file is created: the effect log is empty, so no text or
binary file exists, not even an empty or partial one. -/
theorem claim_C6 (pub : List Char) (rangeVal : Option Nat) (Y : Nat) (binOn : Bool)
    (Bsz : Nat)
    (hbad : (∃ e, hexToPoint pub = .error e) ∨ rangeVal = none ∨ Y % 2 ≠ 0) :
    (mainModel pub rangeVal Y binOn Bsz).1 = [] ∧
    ∃ msg, (mainModel pub rangeVal Y binOn Bsz).2 = Except.error msg := by
  cases hd : hexToPoint pub with
  | error e =>
    simp only [mainModel, hd]
    exact ⟨trivial, "pubkey", rfl⟩
  | ok P =>
    obtain ⟨Px, Py⟩ := P
    rcases hbad with ⟨e, he⟩ | hr | hodd
    · rw [hd] at he
      exact Except.noConfusion he
    · subst hr
      simp only [mainModel, hd]
      exact ⟨trivial, "range", rfl⟩
    · cases rangeVal with
      | none =>
        simp only [mainModel, hd]
        exact ⟨trivial, "range", rfl⟩
      | some X =>
        simp only [mainModel, hd]
        rw [if_pos hodd]
        exact ⟨rfl, "chunks", rfl⟩

theorem claim_C6_witness :
    (mainModel ['0', '1'] (some 4) 2 false 1).1 = [] ∧
    ∃ msg, (mainModel ['0', '1'] (some 4) 2 false 1).2 = Except.error msg :=
  claim_C6 ['0', '1'] (some 4) 2 false 1 (Or.inl ⟨DecErr.fatal, by decide⟩)

/-- C2 (counterexample): on the valid input `P = G` (uncompressed), range 2,
chunks 4 (even), the stride is `2 / 4 = 0`, the first worker index hits the
point at infinity, and the run crashes after emitting a single record — not
the claimed `ChunkCount + 1 = 5` records. -/
theorem claim_C2_counterexample :
    (txtWrites (mainModel genPub04 (some 2) 4 true 1).1).length = 1 ∧
    (mainModel genPub04 (some 2) 4 true 1).2 = Except.error "worker" :=
  ⟨by decide, by decide⟩

/-- C2 (amended): for every valid input (even chunk count, decodable
standard-length public key, parseable range, positive block size) on which
the generation completes without hitting the point at infinity, the run
emits exactly `ChunkCount + 1` records — the record for index 0 (P itself,
offset 0) first, the offsets of the following records strictly increasing —
and the binary sink receives exactly `32 × (ChunkCount + 1)` bytes. -/
theorem claim_C2 (pub : List Char) (X Y Bsz Px Py : Nat) (binOn : Bool)
    (evs : List Ev)
    (hdec : hexToPoint pub = .ok (Px, Py)) (hx : Px < 16 ^ 64) (hB : 0 < Bsz)
    (hrun : mainModel pub (some X) Y binOn Bsz = (evs, .ok ())) :
    ∃ recs, workerBlock Px Py (X / Y) binOn (1, Y + 1) = some recs ∧
      txtWrites evs = (pointToCompressedHex Px Py ++ headerTail) ::
        recs.map (fun r => r.line) ∧
      (txtWrites evs).length = Y + 1 ∧
      List.Chain' (· < ·) (0 :: recs.map (fun r => r.offset)) ∧
      (binOn = true → (binBytes evs).length = 32 * (Y + 1)) := by
  obtain ⟨hY2, hY0, recs, hjoin, htxt, hbt, hbf⟩ := mainModel_ok_parts hdec hrun
  have hseq : workerBlock Px Py (X / Y) binOn (1, Y + 1) = some recs := by
    rw [← pipeline_eq_seq Px Py (X / Y) Y Bsz binOn hB]
    exact hjoin
  have hlenY : recs.length = Y := by
    have := workerBlock_length hseq
    omega
  have hoffE : ∀ (k : Nat) (hk : k < recs.length),
      (recs.get ⟨k, hk⟩).offset = (1 + k) * (X / Y) := by
    intro k hk
    have hstep := workerBlock_get hseq k hk
    obtain ⟨-, -, -, -, -, -, ho, -⟩ := workerStep_some hstep
    exact ho
  have h0len : 0 < recs.length := by omega
  have hZ : X / Y ≠ 0 := by
    intro hz
    have hstep := workerBlock_get hseq 0 h0len
    obtain ⟨qx, qy, sx, sy, hq, -⟩ := workerStep_some hstep
    have hval : ((1 + 0) * (X / Y)) % ORDER = 0 := by rw [hz]; simp
    rw [hval] at hq
    have hinf : scalarMul 0 GEN = Point.inf := rfl
    rw [hinf] at hq
    exact Point.noConfusion hq
  refine ⟨recs, hseq, htxt, ?_, ?_, ?_⟩
  · rw [htxt]
    simp [hlenY]
  · have hZpos : 0 < X / Y := Nat.pos_of_ne_zero hZ
    have hmapoff : recs.map (fun r => r.offset) =
        (List.range' 1 Y).map (fun i => i * (X / Y)) := by
      apply List.ext_getElem
      · simp [hlenY, List.length_range']
      · intro k h1 h2
        simp only [List.getElem_map, List.getElem_range', one_mul]
        have hk : k < recs.length := by simpa using h1
        have hg := hoffE k hk
        rw [List.get_eq_getElem] at hg
        exact hg
    rw [hmapoff]
    have hchain : List.Chain (· < ·) 0 (List.range' 1 Y) := by
      have h := @List.chain_lt_range' 0 Y 1 (by norm_num)
      simpa using h
    show List.Chain (· < ·) 0 ((List.range' 1 Y).map (fun i => i * (X / Y)))
    have h0 : (0 : Nat) = 0 * (X / Y) := by ring
    rw [h0]
    exact (List.chain_map (fun i => i * (X / Y))).mpr
      (hchain.imp (fun a b hab => (mul_lt_mul_right hZpos).mpr hab))
  · intro hbOn
    obtain ⟨hbs, hfh, hbin⟩ := hbt hbOn
    obtain ⟨bs2, hbs2, hlen2⟩ := fromhex_toHex64 hx
    rw [hfh] at hbs2
    have hbs32 : hbs.length = 32 := by
      injection hbs2 with h3
      rw [h3]
      exact hlen2
    have heach : ∀ r ∈ recs, r.bin.length = 32 := by
      intro r hr
      have hseq2 : optMap (workerStep Px Py (X / Y) binOn)
          (List.range' 1 (Y + 1 - 1)) = some recs := hseq
      obtain ⟨i, -, hstep⟩ := optMap_mem _ _ _ hseq2 r hr
      obtain ⟨q1, q2, q3, q4, hw1, hw2, hw3, hw4, hw5, hbinT, hbinF⟩ :=
        workerStep_some hstep
      exact (hbinT hbOn).2
    rw [hbin, List.length_append, List.length_flatten, hbs32,
      sum_lengths_const (fun r => r.bin) 32 recs heach, hlenY]
    ring

theorem claim_C2_witness :
    ∃ recs, workerBlock GEN_X GEN_Y (4 / 2) true (1, 2 + 1) = some recs ∧
      txtWrites (mainModel genPub04 (some 4) 2 true 1).1 =
        (pointToCompressedHex GEN_X GEN_Y ++ headerTail) ::
          recs.map (fun r => r.line) ∧
      (txtWrites (mainModel genPub04 (some 4) 2 true 1).1).length = 2 + 1 ∧
      List.Chain' (· < ·) (0 :: recs.map (fun r => r.offset)) ∧
      (true = true →
        (binBytes (mainModel genPub04 (some 4) 2 true 1).1).length = 32 * (2 + 1)) :=
  claim_C2 genPub04 4 2 1 GEN_X GEN_Y true
    (mainModel genPub04 (some 4) 2 true 1).1
    (by decide) (by decide) (by decide) (by decide)

/-- C10 (counterexample): a 64-character line with interior spaces is counted
as processed, but `bytes.fromhex` skips the spaces and writes only 2 bytes,
so the output length is not `32 ×` the processed count. -/
theorem claim_C10_counterexample :
    (pubkeysToXpoint [convSpacedLine]).count = 1 ∧
    (pubkeysToXpoint [convSpacedLine]).out.length = 2 ∧
    (pubkeysToXpoint [convSpacedLine]).out.length ≠
      32 * (pubkeysToXpoint [convSpacedLine]).count :=
  ⟨by decide, by decide, by decide⟩

/-- C10 (amended): every input line is either ignored (empty), skipped and
counted (bad length or bad hex), or contributes the decoded bytes of its
64-hex-digit payload; provided the surviving payloads contain none of the
ASCII whitespace characters that `bytes.fromhex` skips (space, tab, newline,
carriage return, vertical tab, form feed), every processed line contributes
exactly 32 bytes, and the output length is exactly `32 ×` the processed
count. -/
theorem claim_C10 (lines : List (List Char))
    (hsp : ∀ l ∈ lines, ∀ x, finalHex l = some x → ∀ c ∈ x, isAsciiSpace c = false) :
    (∀ l ∈ lines,
      (finalHex l = none →
        processLine l = .empty ∨ processLine l = .skipped) ∧
      (∀ x, finalHex l = some x →
        processLine l = fromhexRes x ∧ x.length = 64 ∧
        ∀ bs, fromhexBytes x = some bs → 2 * bs.length = 64)) ∧
    (pubkeysToXpoint lines).out.length = 32 * (pubkeysToXpoint lines).count := by
  constructor
  · intro l hl
    refine ⟨processLine_of_finalHex_none, ?_⟩
    intro x hfx
    refine ⟨processLine_of_finalHex_some hfx, finalHex_length hfx, ?_⟩
    intro bs hbs
    have hh := fromhexBytes_len hbs (fun c hc => hsp l hl x hfx c hc)
    rw [finalHex_length hfx] at hh
    exact hh
  · have hh := conv_fold_aux lines ⟨0, 0, []⟩ hsp
    simp only [List.length_nil, Nat.mul_zero, Nat.add_zero, Nat.zero_add] at hh
    unfold pubkeysToXpoint
    omega

theorem claim_C10_witness :
    (∀ l ∈ [convPlainLine], ∀ x, finalHex l = some x →
      ∀ c ∈ x, isAsciiSpace c = false) ∧
    (pubkeysToXpoint [convPlainLine]).out.length =
      32 * (pubkeysToXpoint [convPlainLine]).count :=
  have h : ∀ l ∈ [convPlainLine], ∀ x, finalHex l = some x →
      ∀ c ∈ x, isAsciiSpace c = false := by decide
  ⟨h, (claim_C10 [convPlainLine] h).2⟩

end KeyHunt
